import Mathlib

/-!
Shallow embedding of the 2048 grid engine of `src/game.rs` (the map-keyed
engine) and, for the insertion contract, the relevant part of the list-keyed
variant `src/game12.rs`.

Modelling conventions:
* Rust `u16`/`u32` values are embedded as `Nat`.  Overflow is modelled with an
  explicit `% 65536` only where a claim ranges over all values of a `u16`
  field (`Grid.width`); everywhere else the claims under consideration only
  evaluate the code on small values where `u16` arithmetic and `Nat`
  arithmetic agree.  Rust `u16` subtraction appears as `Nat` truncated
  subtraction; all theorems that depend on a subtraction carry in-bounds
  hypotheses under which the two agree.
* The Rust `HashMap<Position, Tile>` is embedded as an association list
  `List (Position × Tile)`; `HashMap::insert` replaces the previous binding,
  which is embedded by `insertPT` (prepend after erasing the key).  Lookup
  (`get_tile`) is association-list lookup, so the embedding's observable
  behaviour matches the map's.
* `Grid::check` iterates `self.tiles.iter().sorted_by_key(|(p, _)| p.x)`.
  The iteration order of a `HashMap` is unspecified and `sorted_by_key` is a
  stable sort on `x` alone, so the order among tiles with equal `x` (which
  are necessarily in different rows, and whose processing never interacts:
  `get_desired_position` only reads the row of its argument) is left open by
  the source.  The embedding fixes the deterministic refinement that sorts
  by `(x, y)` lexicographically.
* Functions that can panic in Rust (`unwrap` in the animation loop,
  `insert_tile` of `game12.rs`) return `Option`/`none` for the panic.
* `spawn_random_tile` picks a uniformly random element of the `available`
  vector; randomness is embedded as an oracle `pick : List Position →
  Option Position` standing for `SliceRandom::choose`, which returns `none`
  exactly on the empty slice.
* `Grid::on_tick` takes a `_animating: &mut bool` argument that the source
  never reads or writes; it is omitted.
* The resolution fold carries a ghost log `merges` recording each merge the
  pass performs (the destination cell and the merged value), mirroring
  exactly the `if n > tile.n` test the source uses to mark a destination
  unavailable.  The fields the source actually stores are projections that
  ignore this log.
-/

namespace Rust2048

def MARGINX : Nat := 2

def MARGINY : Nat := 1

structure Position where
  x : Nat
  y : Nat
deriving DecidableEq, Repr

structure Coordinates where
  x : Nat
  y : Nat
deriving DecidableEq, Repr

structure Tile where
  coordinates : Coordinates
  n : Nat
deriving DecidableEq, Repr

inductive Move where
  | Up
  | Down
  | Left
  | Right
deriving DecidableEq, Repr

inductive Flip where
  | Horizontal
  | Clock
  | CounterClock
deriving DecidableEq, Repr

structure Grid where
  tiles : List (Position × Tile)
  moving_tiles : List (Position × Position)
  size : Nat
  tile_width : Nat
  tile_height : Nat
  coordinates : Coordinates
deriving DecidableEq, Repr

/-- Association-list lookup embedding `HashMap::get`. -/
def lookupTile : List (Position × Tile) → Position → Option Tile
  | [], _ => none
  | (q, t) :: ts, p => if q = p then some t else lookupTile ts p

/-- Removes the binding of `p` (if any), embedding the overwrite part of
`HashMap::insert` and the whole of `HashMap::remove`. -/
def eraseKey : List (Position × Tile) → Position → List (Position × Tile)
  | [], _ => []
  | (q, t) :: ts, p => if q = p then ts else (q, t) :: eraseKey ts p

/-- `HashMap::insert`: replaces any existing binding of `p`. -/
def insertPT (ts : List (Position × Tile)) (p : Position) (t : Tile) :
    List (Position × Tile) :=
  (p, t) :: eraseKey ts p

/-- `Grid::new` (game.rs line 100). -/
def Grid.new (tile_size : Nat) (coordinates : Coordinates) (size : Nat) : Grid :=
  { tiles := []
    moving_tiles := []
    size := size
    tile_width := tile_size
    tile_height := tile_size / 2
    coordinates := coordinates }

/-- `Grid::width` (game.rs line 114): `2 + self.tile_width * 4 + MARGINX * 4`
in `u16` arithmetic, hence the explicit wrap modulo `2^16`. -/
def Grid.width (g : Grid) : Nat :=
  (2 + g.tile_width * 4 + MARGINX * 4) % 65536

/-- `Grid::height` (game.rs line 118): `self.width() / 2`. -/
def Grid.height (g : Grid) : Nat :=
  g.width / 2

/-- `Grid::get_tile` (game.rs line 130). -/
def Grid.get_tile (g : Grid) (pos : Position) : Option Tile :=
  lookupTile g.tiles pos

/-- `Grid::get_coordinates_at` (game.rs line 138). -/
def Grid.get_coordinates_at (g : Grid) (pos : Position) : Coordinates :=
  { x := g.coordinates.x + MARGINX + pos.x * MARGINX + pos.x * g.tile_width
    y := g.coordinates.y + MARGINY + pos.y * MARGINY + pos.y * g.tile_height }

/-- `Grid::insert_tile` (game.rs line 144): `HashMap::insert`, which silently
replaces any tile already stored at `pos`. -/
def Grid.insert_tile (g : Grid) (pos : Position) (n : Nat) : Grid :=
  { g with tiles := insertPT g.tiles pos ⟨g.get_coordinates_at pos, n⟩ }

/-- `Grid::remove_tile` (game.rs line 149). -/
def Grid.remove_tile (g : Grid) (pos : Position) : Grid :=
  { g with tiles := eraseKey g.tiles pos }

/-- Removes the first in-flight move whose source is `p`, embedding the
`Vec::remove` at the index found by `position(...)`. -/
def eraseMoving : List (Position × Position) → Position → List (Position × Position)
  | [], _ => []
  | (q, d) :: ms, p => if q = p then ms else (q, d) :: eraseMoving ms p

/-- `Grid::remove_moving_tile` (game.rs line 153); the `.unwrap()` on the
index search panics when no in-flight move starts at `pos`, embedded as
`none`. -/
def Grid.remove_moving_tile (g : Grid) (pos : Position) : Option Grid :=
  if (g.moving_tiles.filter (fun e => e.1 = pos)).length = 0 then none
  else some { g with moving_tiles := eraseMoving g.moving_tiles pos }

/-- The `available` vector of `Grid::spawn_random_tile` (game.rs lines
163-170), built in the source's `x`-major, `y`-minor order. -/
def Grid.availableCells (g : Grid) : List Position :=
  (List.range g.size).flatMap fun x =>
    (List.range g.size).filterMap fun y =>
      if (g.get_tile ⟨x, y⟩).isSome then none else some ⟨x, y⟩

/-- `Grid::spawn_random_tile` (game.rs line 162); `pick` stands for
`SliceRandom::choose(&mut rand::thread_rng())`. -/
def Grid.spawn_random_tile (g : Grid)
    (pick : List Position → Option Position) : Grid × Except String Unit :=
  let available := g.availableCells
  if available.length < 1 then (g, .error "No space left")
  else
    match pick available with
    | some p => (g.insert_tile p 2, .ok ())
    | none => (g, .error "Something went wrong")

/-- The position transform of `Grid::flip` (game.rs lines 188-210), with
`s = size - 1`.  Rust `u16` subtraction appears as `Nat` truncated
subtraction; the two agree on in-bounds positions. -/
def flipPos (f : Flip) (s : Nat) (p : Position) : Position :=
  match f with
  | .Horizontal => ⟨s - p.x, p.y⟩
  | .CounterClock => ⟨s - p.y, p.x⟩
  | .Clock => ⟨p.y, s - p.x⟩

/-- `Grid::flip` (game.rs line 183): remaps the keys of `tiles` and both
components of every `moving_tiles` entry; tile payloads (value and pixel
coordinates) are untouched. -/
def Grid.flip (g : Grid) (f : Flip) : Grid :=
  let s := g.size - 1
  { g with
    moving_tiles := g.moving_tiles.map fun e => (flipPos f s e.1, flipPos f s e.2)
    tiles := g.tiles.map fun pt => (flipPos f s pt.1, pt.2) }

/-- The scan loop of `Grid::get_desired_position` (game.rs lines 226-241):
`checking_x` runs from `x - 1` down to `0`; `newx` holds the Rust `new_x`,
and every call has `newx = cx + 1`. -/
def gdpAux (ts : List (Position × Tile)) (y n : Nat) (unavailable : List Position) :
    Nat → Nat → Position × Nat
  | cx, newx =>
    if (⟨cx, y⟩ : Position) ∈ unavailable then (⟨newx, y⟩, n)
    else
      match lookupTile ts ⟨cx, y⟩ with
      | some t => if t.n = n then (⟨cx, y⟩, n * 2) else (⟨newx, y⟩, n)
      | none =>
        match cx with
        | 0 => (⟨0, y⟩, n)
        | c + 1 => gdpAux ts y n unavailable c (c + 1)

/-- `Grid::get_desired_position` (game.rs line 214), called on the working
grid being built by `Grid::check`. -/
def Grid.get_desired_position (g : Grid) (pos : Position) (n : Nat)
    (unavailable : List Position) : Position × Nat :=
  if pos.x = 0 then (pos, n)
  else gdpAux g.tiles pos.y n unavailable (pos.x - 1) pos.x

/-- Lexicographic key order fixing the order left open by the stable
`sorted_by_key(|(p, _)| p.x)` over an unordered `HashMap` (see the header). -/
def leKey (a b : Position × Tile) : Prop :=
  a.1.x < b.1.x ∨ (a.1.x = b.1.x ∧ a.1.y ≤ b.1.y)

instance : DecidableRel leKey := fun a b => by
  unfold leKey
  infer_instance

def sortTiles (ts : List (Position × Tile)) : List (Position × Tile) :=
  List.insertionSort leKey ts

/-- State of the resolution pass of `Grid::check`: the working grid
`new_grid`, the local `unavailable` vector, and the ghost merge log. -/
structure RState where
  ng : Grid
  unavailable : List Position
  merges : List (Position × Nat)
deriving Repr

/-- One iteration of the resolution loop of `Grid::check` (game.rs lines
266-276). -/
def resolveStep (st : RState) (pt : Position × Tile) : RState :=
  let r := st.ng.get_desired_position pt.1 pt.2.n st.unavailable
  let unavailable' := if r.2 > pt.2.n then st.unavailable ++ [r.1] else st.unavailable
  let ng1 := st.ng.insert_tile r.1 r.2
  let ng2 :=
    if pt.1 = r.1 then ng1
    else { ng1 with moving_tiles := ng1.moving_tiles ++ [(pt.1, r.1)] }
  { ng := ng2
    unavailable := unavailable'
    merges := if r.2 > pt.2.n then st.merges ++ [(r.1, r.2)] else st.merges }

/-- The pre-rotation `self.flip(...)` of `Grid::check` (game.rs lines
252-263). -/
def Grid.preFlip (g : Grid) (m : Move) : Grid :=
  match m with
  | .Right => g.flip .Horizontal
  | .Up => g.flip .Clock
  | .Down => g.flip .CounterClock
  | .Left => g

/-- The resolution pass of `Grid::check` on the already-rotated grid:
`new_grid` starts out as `Grid { tiles: HashMap::new(), moving_tiles: vec![],
..*self }`, then the sorted tiles are folded through `resolveStep`. -/
def Grid.resolveState (g : Grid) (m : Move) : RState :=
  let self1 := g.preFlip m
  (sortTiles self1.tiles).foldl resolveStep
    { ng := { tiles := []
              moving_tiles := []
              size := self1.size
              tile_width := self1.tile_width
              tile_height := self1.tile_height
              coordinates := self1.coordinates }
      unavailable := []
      merges := [] }

/-- `Grid::check` (game.rs line 245).  Returns the pair (mutated `self`,
working grid after the closing rotation); the source's return value is the
second component's `moving_tiles`. -/
def Grid.check (g : Grid) (m : Move) : Grid × Grid :=
  let self1 := g.preFlip m
  let st := g.resolveState m
  match m with
  | .Right => (self1.flip .Horizontal, st.ng.flip .Horizontal)
  | .Up => (self1.flip .CounterClock, st.ng.flip .CounterClock)
  | .Down => (self1.flip .Clock, st.ng.flip .Clock)
  | .Left => (self1, st.ng)

/-- The ghost merge log of `Grid.check`, carried back to the original
orientation by the same closing rotation the source applies to `new_grid`. -/
def Grid.checkMerges (g : Grid) (m : Move) : List (Position × Nat) :=
  let st := g.resolveState m
  let s := g.size - 1
  match m with
  | .Right => st.merges.map fun cn => (flipPos .Horizontal s cn.1, cn.2)
  | .Up => st.merges.map fun cn => (flipPos .CounterClock s cn.1, cn.2)
  | .Down => st.merges.map fun cn => (flipPos .Clock s cn.1, cn.2)
  | .Left => st.merges

/-- Updates the pixel coordinates of the tile stored at `pos`
(`self.get_tile_mut(*pos).unwrap().mv(...)`, game.rs lines 325-326). -/
def updateTileCoords (ts : List (Position × Tile)) (pos : Position)
    (c : Coordinates) : List (Position × Tile) :=
  ts.map fun qt => if qt.1 = pos then (qt.1, ⟨c, qt.2.n⟩) else qt

/-- One iteration of the animation loop of `Grid::on_tick` (game.rs lines
299-328) for the in-flight entry `(pos, new_pos)`; `none` embeds the
`unwrap` panics. -/
def animStep (g : Grid) (e : Position × Position) : Option Grid :=
  let pos := e.1
  let new_pos := e.2
  let desired := g.get_coordinates_at new_pos
  match g.get_tile pos with
  | none => none
  | some tile =>
    let current := tile.coordinates
    let stepped : Coordinates :=
      if desired.x > current.x then ⟨current.x + 4, current.y⟩
      else if desired.x < current.x then ⟨current.x - 4, current.y⟩
      else if desired.y > current.y then ⟨current.x, current.y + 2⟩
      else if desired.y < current.y then ⟨current.x, current.y - 2⟩
      else current
    if desired = stepped then
      let g1 :=
        match g.get_tile new_pos with
        | some t2 => g.insert_tile new_pos (t2.n * 2)
        -- the source re-reads `self.get_tile(*pos).unwrap().n` here; nothing
        -- has mutated `tiles` since the read above, so it is `tile.n`
        | none => g.insert_tile new_pos tile.n
      (g1.remove_tile pos).remove_moving_tile pos
    else
      some { g with tiles := updateTileCoords g.tiles pos stepped }

/-- The whole animation pass of `Grid::on_tick`: the loop runs over
`self.moving_tiles.clone()`, so the iteration list is the snapshot taken on
entry while the state evolves. -/
def animPass (g : Grid) : Option Grid :=
  g.moving_tiles.foldlM animStep g

/-- Iterates `animPass`; used to speak about the state after the animation
has fully settled but before the spawn that `on_tick` triggers. -/
def iterateAnim : Nat → Grid → Option Grid
  | 0, g => some g
  | k + 1, g => (animPass g).bind (iterateAnim k)

/-- `Grid::on_tick` (game.rs line 297).  The source returns `()` and ignores
the result of `spawn_random_tile`; the unused `_animating` argument is
omitted, and `none` embeds the `unwrap` panics of the animation loop. -/
def Grid.on_tick (g : Grid) (mv : Option Move)
    (pick : List Position → Option Position) : Option Grid :=
  if g.moving_tiles.length > 0 then
    match animPass g with
    | none => none
    | some g1 =>
      if g1.moving_tiles.length = 0 then some (g1.spawn_random_tile pick).1
      else some g1
  else
    match mv with
    | none => some g
    | some m =>
      let r := g.check m
      some { r.1 with moving_tiles := r.2.moving_tiles }

/-- Total value on the board: the sum of `tile.n` over all stored tiles. -/
def totalTiles (ts : List (Position × Tile)) : Nat :=
  (ts.map fun pt => pt.2.n).sum

/-- The transform `Grid::check` applies to positions before resolution:
identity for the canonical direction `Left`, one of the three flips
otherwise (game.rs lines 252-263). -/
def preFlipPos (m : Move) (s : Nat) (p : Position) : Position :=
  match m with
  | .Left => p
  | .Right => flipPos .Horizontal s p
  | .Up => flipPos .Clock s p
  | .Down => flipPos .CounterClock s p

/-- The transform `Grid::check` applies to positions after resolution
(game.rs lines 278-292). -/
def postFlipPos (m : Move) (s : Nat) (p : Position) : Position :=
  match m with
  | .Left => p
  | .Right => flipPos .Horizontal s p
  | .Up => flipPos .CounterClock s p
  | .Down => flipPos .Clock s p

/-- The settled board a resolution outcome describes: the working grid of
`Grid::check` taken as a quiescent grid (no in-flight moves). -/
def Grid.applyResolve (g : Grid) (m : Move) : Grid :=
  { (g.check m).2 with moving_tiles := [] }

/-- The transitions `Grid::check` returns. -/
def Grid.checkTransitions (g : Grid) (m : Move) : List (Position × Position) :=
  (g.check m).2.moving_tiles

/-! ## The list-keyed variant of `src/game12.rs` (for the insertion contract) -/

structure Tile12 where
  position : Position
  desired_position : Position
  coordinates : Coordinates
  n : Nat
deriving DecidableEq, Repr

structure Grid12 where
  tiles : List Tile12
  size : Nat
  tile_width : Nat
  tile_height : Nat
  coordinates : Coordinates
deriving DecidableEq, Repr

/-- `Grid::get_tile` of game12.rs (line 117): linear search by position. -/
def Grid12.get_tile (g : Grid12) (position : Position) : Option Tile12 :=
  g.tiles.find? fun t => decide (t.position = position)

/-- `Grid::get_coordinates_at` of game12.rs (line 121). -/
def Grid12.get_coordinates_at (g : Grid12) (position : Position) : Coordinates :=
  { x := g.coordinates.x + MARGINX + position.x * MARGINX + position.x * g.tile_width
    y := g.coordinates.y + MARGINY + position.y * MARGINY + position.y * g.tile_height }

/-- `Grid::insert_tile` of game12.rs (line 129): panics (embedded as `none`)
when a tile already occupies `position`, otherwise pushes the new tile. -/
def Grid12.insert_tile (g : Grid12) (position desired : Position) (n : Nat) :
    Option Grid12 :=
  match g.get_tile position with
  | some _ => none
  | none =>
    some { g with
           tiles := g.tiles ++ [⟨position, desired, g.get_coordinates_at position, n⟩] }

/-! ## Concrete grids used by the scenario claims -/

/-- The oracle standing in for `SliceRandom::choose` in closed statements:
like the real `choose`, it returns `none` exactly on the empty list. -/
def pickHead : List Position → Option Position := List.head?

/-- An empty size-4 grid with the tile size the repository's own test uses
(`Grid::new(10, C::new(0, 0), 4)`). -/
def baseGrid4 : Grid := Grid.new 10 ⟨0, 0⟩ 4

/-- Scenario A's board: size 4 with tiles `{(0,0):2, (2,0):2}`, built by the
same two `insert_tile` calls as the repository's `one_tile_move_right` test. -/
def gridA : Grid := (baseGrid4.insert_tile ⟨2, 0⟩ 2).insert_tile ⟨0, 0⟩ 2

/-- `gridA` right after `on_tick(Some(Move::Left))`: the single transition
`((2,0),(0,0))` is in flight. -/
def gridA1 : Grid := { gridA with moving_tiles := [(⟨2, 0⟩, ⟨0, 0⟩)] }

/-- `gridA` once the animation has fully settled (6 ticks of 4 pixels across
the 24-pixel gap), before the spawn: a single tile of value 4 at `(0,0)`. -/
def gridAF : Grid :=
  { gridA with tiles := [(⟨0, 0⟩, ⟨⟨2, 1⟩, 4⟩)], moving_tiles := [] }

/-- A stuck size-2 board: all four cells occupied by pairwise non-mergeable
values, no direction changes the board. -/
def gridStuck2 : Grid :=
  ((((Grid.new 10 ⟨0, 0⟩ 2).insert_tile ⟨0, 0⟩ 2).insert_tile ⟨1, 0⟩ 4).insert_tile
      ⟨0, 1⟩ 8).insert_tile ⟨1, 1⟩ 16

/-- The `[4, 2, 2]` row whose Left resolution produces an adjacent equal pair:
the counterexample board for the idempotence claim. -/
def gridRow422 : Grid :=
  ((baseGrid4.insert_tile ⟨0, 0⟩ 4).insert_tile ⟨1, 0⟩ 2).insert_tile ⟨2, 0⟩ 2

/-- A board whose Left resolution slides without merging:
`{(0,0):2, (2,0):4}`. -/
def gridMergeFree : Grid :=
  (baseGrid4.insert_tile ⟨0, 0⟩ 2).insert_tile ⟨2, 0⟩ 4

/-- An empty list-keyed grid of game12.rs with the test's parameters. -/
def grid12Base : Grid12 := ⟨[], 4, 10, 5, ⟨0, 0⟩⟩

instance : DecidableEq (Except String Unit) := fun a b =>
  match a, b with
  | .ok u, .ok v => isTrue (by cases u; cases v; rfl)
  | .error s, .error t =>
    if h : s = t then isTrue (by rw [h])
    else isFalse (fun hc => h (by injection hc))
  | .ok _, .error _ => isFalse (fun hc => Except.noConfusion hc)
  | .error _, .ok _ => isFalse (fun hc => Except.noConfusion hc)

/-- A list-keyed grid holding one tile of value 2 at `(0,0)`. -/
def grid12Occ : Grid12 := ⟨[⟨⟨0, 0⟩, ⟨0, 0⟩, ⟨2, 1⟩, 2⟩], 4, 10, 5, ⟨0, 0⟩⟩

/-! ## Auxiliary notions for the resolution-pass proofs -/

/-- A position lies inside a grid of side length `size`. -/
def InBounds (size : Nat) (p : Position) : Prop :=
  p.x < size ∧ p.y < size

instance (size : Nat) (p : Position) : Decidable (InBounds size p) := by
  unfold InBounds
  infer_instance

/-- Strict lexicographic key order: the processing order of the resolution
pass on distinct keys. -/
def ltKey (a b : Position × Tile) : Prop :=
  a.1.x < b.1.x ∨ (a.1.x = b.1.x ∧ a.1.y < b.1.y)

/-- No two entries share a key (the `HashMap` invariant of `tiles`). -/
def distinctKeys (ts : List (Position × Tile)) : Prop :=
  List.Pairwise (fun a b => a.1 ≠ b.1) ts

instance (ts : List (Position × Tile)) : Decidable (distinctKeys ts) := by
  unfold distinctKeys
  infer_instance

/-- The stored value at a position, ignoring pixel coordinates. -/
def lookupN (ts : List (Position × Tile)) (p : Position) : Option Nat :=
  (lookupTile ts p).map Tile.n

/-- The values of the processed tiles of row `y`, in processing order; for a
merge-free pass this is exactly the row's packed contents. -/
def rowValsOf (P : List (Position × Tile)) (y : Nat) : List Nat :=
  (P.filter fun pt => decide (pt.1.y = y)).map fun pt => pt.2.n

/-- Row `y` of `ts` is the packed prefix holding exactly the values `vs`. -/
def RowView (ts : List (Position × Tile)) (y : Nat) (vs : List Nat) : Prop :=
  ∀ x : Nat, lookupN ts ⟨x, y⟩ = vs.get? x

/-- Invariant of the resolution fold after processing the prefix `P` of the
sorted tile list: the working grid has unique keys, every placed tile sits in
the row of one of its processed sources and not to its right, the working
total equals the processed total, every logged merge cell is marked
unavailable, no cell is logged twice, and logged cells are in bounds. -/
def ResolveInv (size : Nat) (P : List (Position × Tile)) (st : RState) : Prop :=
  distinctKeys st.ng.tiles ∧
  (∀ pt ∈ st.ng.tiles, ∃ q ∈ P, pt.1.y = q.1.y ∧ pt.1.x ≤ q.1.x) ∧
  totalTiles st.ng.tiles = totalTiles P ∧
  (∀ cn ∈ st.merges, cn.1 ∈ st.unavailable) ∧
  List.Pairwise (fun a b : Position × Nat => a.1 ≠ b.1) st.merges ∧
  (∀ cn ∈ st.merges, InBounds size cn.1)

/-- Invariant of a merge-free resolution pass after processing the prefix
`P`: nothing was marked unavailable or logged, every row of the working grid
is the packed prefix holding the processed values of that row in order, with
no two adjacent values equal, and each non-empty row has a processed source
bounding its length. -/
def NoMergeInv (P : List (Position × Tile)) (st : RState) : Prop :=
  st.unavailable = [] ∧ st.merges = [] ∧
  (∀ y, RowView st.ng.tiles y (rowValsOf P y)) ∧
  (∀ y, List.Chain' (fun a b => a ≠ b) (rowValsOf P y)) ∧
  (∀ y, rowValsOf P y = [] ∨
    ∃ q ∈ P, q.1.y = y ∧ (rowValsOf P y).length ≤ q.1.x + 1)

/-- Invariant of resolving a grid whose rows are already packed with no
adjacent equal values: after the prefix `P2`, the working grid holds exactly
the processed tiles (by value), at their own positions, and no transition
has been recorded. -/
def StaysInv (ts : List (Position × Tile)) (P2 : List (Position × Tile))
    (st2 : RState) : Prop :=
  st2.unavailable = [] ∧ st2.ng.moving_tiles = [] ∧
  (∀ b ∈ P2, lookupN st2.ng.tiles b.1 = lookupN ts b.1) ∧
  (∀ q : Position, (∀ b ∈ P2, b.1 ≠ q) → lookupN st2.ng.tiles q = none)

/-! ## A finite family of boards settled through the full animation
(for the conservation claim) -/

/-- Builds a size-4 board holding the given values (0 = empty cell) along
row 0. -/
def insertRow : Grid → Nat → List Nat → Grid
  | g, _, [] => g
  | g, i, v :: vs =>
    insertRow (if v = 0 then g else g.insert_tile ⟨i, 0⟩ v) (i + 1) vs

def mkRowGrid (vs : List Nat) : Grid := insertRow baseGrid4 0 vs

def rowPatterns : List (List Nat) :=
  [0, 2, 4, 8].flatMap fun a =>
    [0, 2, 4, 8].flatMap fun b =>
      [0, 2, 4, 8].flatMap fun c =>
        [0, 2, 4, 8].map fun d => [a, b, c, d]

/-- Runs a move through `on_tick` and the animation until it settles (at
most 12 ticks are ever needed on these boards) and checks that the settled
total, before any spawn, equals the pre-move total. -/
def settleConserved (g : Grid) (m : Move) : Bool :=
  match g.on_tick (some m) pickHead with
  | none => false
  | some g1 =>
    match iterateAnim 12 g1 with
    | none => false
    | some gf => gf.moving_tiles.isEmpty && (totalTiles gf.tiles == totalTiles g.tiles)

def c4FamilyOK : Bool :=
  rowPatterns.all fun vs =>
    settleConserved (mkRowGrid vs) Move.Left && settleConserved (mkRowGrid vs) Move.Right

/-! # Theorems -/

/-- Claim C10: for every grid regardless of its configured size, `width()`
returns `2 + 4 * tile_width + 4 * MARGINX` (in `u16` arithmetic) and
`height()` returns `width() / 2`; the reported pixel dimensions hard-code a
4-cell layout and do not vary with the grid's `size` field. -/
theorem c10_width_height_hardcode_four (g : Grid) :
    g.width = (2 + g.tile_width * 4 + MARGINX * 4) % 65536 ∧
    g.height = g.width / 2 ∧
    ∀ s : Nat, ({ g with size := s } : Grid).width = g.width := by
  refine ⟨rfl, rfl, fun s => rfl⟩

/-- Claim C6: for every grid size ≥ 2, every position inside the grid and
each of the four directions, the rotation `check` applies before resolution
followed by the rotation it applies after resolution is the identity. -/
theorem c6_rotation_round_trip (m : Move) (size : Nat) (p : Position)
    (_hs : 2 ≤ size) (hx : p.x < size) (hy : p.y < size) :
    postFlipPos m (size - 1) (preFlipPos m (size - 1) p) = p := by
  cases m <;> cases p <;> simp_all [preFlipPos, postFlipPos, flipPos] <;> omega

/-- Witness for `c6_rotation_round_trip` at direction `Up`, grid size 4,
position `(1, 2)`. -/
theorem c6_rotation_round_trip_witness :
    2 ≤ 4 ∧ 1 < 4 ∧ 2 < 4 ∧
    postFlipPos Move.Up (4 - 1) (preFlipPos Move.Up (4 - 1) ⟨1, 2⟩) = ⟨1, 2⟩ :=
  ⟨by decide, by decide, by decide,
    c6_rotation_round_trip Move.Up 4 ⟨1, 2⟩ (by decide) (by decide) (by decide)⟩

/-- Claim C8: while the in-flight move set is non-empty, `on_tick` ignores
the move command entirely: calling it with any move gives exactly the same
result as calling it with no move, so the Move Resolver is not consulted and
the in-flight set evolves only through the animation pass. -/
theorem c8_move_dropped_while_animating (g : Grid) (m : Move)
    (pick : List Position → Option Position) (h : g.moving_tiles ≠ []) :
    g.on_tick (some m) pick = g.on_tick none pick := by
  have hl : g.moving_tiles.length > 0 := List.length_pos.mpr h
  simp only [Grid.on_tick, if_pos hl]

/-- Witness for `c8_move_dropped_while_animating` on the animating Scenario-A
grid. -/
theorem c8_move_dropped_while_animating_witness :
    gridA1.moving_tiles ≠ [] ∧
    gridA1.on_tick (some Move.Right) pickHead = gridA1.on_tick none pickHead :=
  ⟨by decide, c8_move_dropped_while_animating gridA1 Move.Right pickHead (by decide)⟩

/-- Claim C1 (Scenario A): on the size-4 board `{(0,0):2, (2,0):2}` (with the
pixel parameters of the repository's own test, tile size 10 at origin
`(0,0)`), `on_tick(Some(Left))` puts the single transition `((2,0),(0,0))`
in flight, and after the animation fully settles (6 ticks later, just before
the spawn) the board holds exactly one tile of value 4 at `(0,0)`. -/
theorem c1_scenarioA_left_merge :
    gridA.on_tick (some Move.Left) pickHead = some gridA1 ∧
    gridA1.moving_tiles = [(⟨2, 0⟩, ⟨0, 0⟩)] ∧
    iterateAnim 6 gridA1 = some gridAF ∧
    gridAF.tiles = [(⟨0, 0⟩, ⟨⟨2, 1⟩, 4⟩)] ∧
    gridAF.moving_tiles = [] := by decide

/-- Claim C2 (behaviour the code actually has at the claimed failing input):
on the stuck size-2 board every direction's `on_tick` is a no-op that
returns no signal whatsoever — in the source its return type is `()` and it
never even reaches `spawn_random_tile` (a spawn only runs when an animation
finishes, and no move ever starts one here) — while `spawn_random_tile`
itself, called directly, is the only place a board-full error exists. -/
theorem c2_on_tick_never_reports_game_over :
    gridStuck2.on_tick (some Move.Left) pickHead = some gridStuck2 ∧
    gridStuck2.on_tick (some Move.Right) pickHead = some gridStuck2 ∧
    gridStuck2.on_tick (some Move.Up) pickHead = some gridStuck2 ∧
    gridStuck2.on_tick (some Move.Down) pickHead = some gridStuck2 ∧
    gridStuck2.on_tick none pickHead = some gridStuck2 ∧
    gridStuck2.availableCells = [] ∧
    gridStuck2.spawn_random_tile pickHead = (gridStuck2, .error "No space left") := by
  decide

/-- Counterexample to claim C3 as stated: in game.rs, inserting at the
occupied position `(0,0)` (holding a 2) succeeds silently and replaces the
tile — the embedded `insert_tile` is total (`HashMap::insert` cannot fail),
the new value is stored and the tile count does not grow. -/
theorem c3_counterexample_silent_replace :
    (gridA.insert_tile ⟨0, 0⟩ 4).get_tile ⟨0, 0⟩ = some ⟨⟨2, 1⟩, 4⟩ ∧
    (gridA.insert_tile ⟨0, 0⟩ 4).tiles.length = gridA.tiles.length := by decide

/-- Claim C3 as amended: the list-keyed `insert_tile` of game12.rs panics on
every occupied position, while the map-keyed `insert_tile` of game.rs always
succeeds and silently replaces whatever tile occupies the position (the
animation commit relies on this replacement to merge). -/
theorem c3_amended_insert_contracts :
    (∀ (g : Grid12) (p d : Position) (n : Nat) (t : Tile12),
        g.get_tile p = some t → g.insert_tile p d n = none) ∧
    (∀ (g : Grid) (p : Position) (n : Nat),
        (g.insert_tile p n).get_tile p = some ⟨g.get_coordinates_at p, n⟩) := by
  constructor
  · intro g p d n t h
    simp only [Grid12.insert_tile, h]
  · intro g p n
    simp [Grid.insert_tile, Grid.get_tile, insertPT, lookupTile]

/-- Witness for `c3_amended_insert_contracts`: the occupied cell `(0,0)` of
`grid12Occ` makes the game12 insert panic, and the game.rs insert on
`gridA` stores the replacing tile. -/
theorem c3_amended_insert_contracts_witness :
    grid12Occ.get_tile ⟨0, 0⟩ = some ⟨⟨0, 0⟩, ⟨0, 0⟩, ⟨2, 1⟩, 2⟩ ∧
    grid12Occ.insert_tile ⟨0, 0⟩ ⟨0, 0⟩ 4 = none ∧
    (gridA.insert_tile ⟨0, 0⟩ 4).get_tile ⟨0, 0⟩ =
      some ⟨gridA.get_coordinates_at ⟨0, 0⟩, 4⟩ :=
  ⟨by decide,
    c3_amended_insert_contracts.1 grid12Occ ⟨0, 0⟩ ⟨0, 0⟩ 4
      ⟨⟨0, 0⟩, ⟨0, 0⟩, ⟨2, 1⟩, 2⟩ (by decide),
    c3_amended_insert_contracts.2 gridA ⟨0, 0⟩ 4⟩

/-- Counterexample to claim C4 as stated: for Scenario A the move fully
settles with one merge of destination value 4, yet the settled total equals
the pre-move total (4 = 4), not the pre-move total plus `4 / 2`. -/
theorem c4_counterexample_total_conserved :
    gridA.on_tick (some Move.Left) pickHead = some gridA1 ∧
    iterateAnim 6 gridA1 = some gridAF ∧
    gridAF.moving_tiles = [] ∧
    gridA.checkMerges Move.Left = [(⟨0, 0⟩, 4)] ∧
    totalTiles gridAF.tiles = totalTiles gridA.tiles ∧
    ¬ totalTiles gridAF.tiles = totalTiles gridA.tiles + 4 / 2 := by decide

/-- Counterexample to claim C7 as stated: the Left resolution of the row
`[4, 2, 2]` merges into `[4, 4]`; taking that outcome as a board (the grid
obtained by applying the resolution outcome) and resolving Left again yields
the non-empty transition set `[((1,0),(0,0))]`. -/
theorem c7_counterexample_recompact_not_noop :
    gridRow422.checkTransitions Move.Left = [(⟨2, 0⟩, ⟨1, 0⟩)] ∧
    (gridRow422.applyResolve Move.Left).checkTransitions Move.Left =
      [(⟨1, 0⟩, ⟨0, 0⟩)] ∧
    (gridRow422.applyResolve Move.Left).checkTransitions Move.Left ≠ [] := by
  decide

/-! ## Frame effect of `check` (claim C9) -/

theorem flipPos_hh (s : Nat) (p : Position) (hx : p.x ≤ s) :
    flipPos .Horizontal s (flipPos .Horizontal s p) = p := by
  cases p <;> simp_all [flipPos] <;> omega

theorem flipPos_cc_c (s : Nat) (p : Position) (hx : p.x ≤ s) :
    flipPos .CounterClock s (flipPos .Clock s p) = p := by
  cases p <;> simp_all [flipPos] <;> omega

theorem flipPos_c_cc (s : Nat) (p : Position) (hy : p.y ≤ s) :
    flipPos .Clock s (flipPos .CounterClock s p) = p := by
  cases p <;> simp_all [flipPos] <;> omega

theorem Grid.flip_size (g : Grid) (f : Flip) : (g.flip f).size = g.size := rfl

theorem Grid.flip_flip_of_inv (g : Grid) (f1 f2 : Flip)
    (h : ∀ p : Position, p.x < g.size → p.y < g.size →
        flipPos f2 (g.size - 1) (flipPos f1 (g.size - 1) p) = p)
    (hbt : ∀ pt ∈ g.tiles, pt.1.x < g.size ∧ pt.1.y < g.size)
    (hbm : ∀ e ∈ g.moving_tiles,
        (e.1.x < g.size ∧ e.1.y < g.size) ∧ (e.2.x < g.size ∧ e.2.y < g.size)) :
    (g.flip f1).flip f2 = g := by
  unfold Grid.flip
  have ht :
      ((g.tiles.map fun pt => (flipPos f1 (g.size - 1) pt.1, pt.2)).map
          fun pt => (flipPos f2 (g.size - 1) pt.1, pt.2)) = g.tiles := by
    rw [List.map_map]
    have hcongr : ∀ pt ∈ g.tiles,
        ((fun pt : Position × Tile => (flipPos f2 (g.size - 1) pt.1, pt.2)) ∘
            fun pt : Position × Tile => (flipPos f1 (g.size - 1) pt.1, pt.2)) pt = pt := by
      intro pt hpt
      obtain ⟨hx, hy⟩ := hbt pt hpt
      simp [Function.comp, h pt.1 hx hy]
    calc (g.tiles.map (((fun pt : Position × Tile => (flipPos f2 (g.size - 1) pt.1, pt.2)) ∘
            fun pt : Position × Tile => (flipPos f1 (g.size - 1) pt.1, pt.2))))
        = g.tiles.map id := List.map_congr_left fun a ha => hcongr a ha
      _ = g.tiles := List.map_id g.tiles
  have hm :
      ((g.moving_tiles.map fun e =>
            (flipPos f1 (g.size - 1) e.1, flipPos f1 (g.size - 1) e.2)).map
          fun e => (flipPos f2 (g.size - 1) e.1, flipPos f2 (g.size - 1) e.2)) =
        g.moving_tiles := by
    rw [List.map_map]
    have hcongr : ∀ e ∈ g.moving_tiles,
        ((fun e : Position × Position =>
              (flipPos f2 (g.size - 1) e.1, flipPos f2 (g.size - 1) e.2)) ∘
            fun e : Position × Position =>
              (flipPos f1 (g.size - 1) e.1, flipPos f1 (g.size - 1) e.2)) e = e := by
      intro e he
      obtain ⟨⟨hx1, hy1⟩, hx2, hy2⟩ := hbm e he
      simp [Function.comp, h e.1 hx1 hy1, h e.2 hx2 hy2]
    calc (g.moving_tiles.map (((fun e : Position × Position =>
              (flipPos f2 (g.size - 1) e.1, flipPos f2 (g.size - 1) e.2)) ∘
            fun e : Position × Position =>
              (flipPos f1 (g.size - 1) e.1, flipPos f1 (g.size - 1) e.2))))
        = g.moving_tiles.map id := List.map_congr_left fun a ha => hcongr a ha
      _ = g.moving_tiles := List.map_id g.moving_tiles
  simp only [ht, hm]

/-- Claim C9: the move-resolution pass `check` leaves the live grid exactly
as it found it (tile map, in-flight list and every other field): the first
component of the embedded `check` — the final state of `self` — equals the
input grid; the resolved outcome lives only in the returned working grid. -/
theorem c9_check_preserves_live_grid (g : Grid) (m : Move)
    (hbt : ∀ pt ∈ g.tiles, pt.1.x < g.size ∧ pt.1.y < g.size)
    (hbm : ∀ e ∈ g.moving_tiles,
        (e.1.x < g.size ∧ e.1.y < g.size) ∧ (e.2.x < g.size ∧ e.2.y < g.size)) :
    (g.check m).1 = g := by
  cases m with
  | Left => rfl
  | Right =>
    show (g.flip .Horizontal).flip .Horizontal = g
    exact g.flip_flip_of_inv .Horizontal .Horizontal
      (fun p hx _ => flipPos_hh _ p (by omega)) hbt hbm
  | Up =>
    show (g.flip .Clock).flip .CounterClock = g
    exact g.flip_flip_of_inv .Clock .CounterClock
      (fun p hx _ => flipPos_cc_c _ p (by omega)) hbt hbm
  | Down =>
    show (g.flip .CounterClock).flip .Clock = g
    exact g.flip_flip_of_inv .CounterClock .Clock
      (fun p _ hy => flipPos_c_cc _ p (by omega)) hbt hbm

/-- Witness for `c9_check_preserves_live_grid` on the Scenario-A board with
an Up move. -/
theorem c9_check_preserves_live_grid_witness :
    (∀ pt ∈ gridA.tiles, pt.1.x < gridA.size ∧ pt.1.y < gridA.size) ∧
    (gridA.check Move.Up).1 = gridA :=
  ⟨by decide,
    c9_check_preserves_live_grid gridA Move.Up (by decide) (by decide)⟩

/-! ## Association-list lemmas -/

theorem lookupTile_insertPT_self (ts : List (Position × Tile)) (p : Position) (t : Tile) :
    lookupTile (insertPT ts p t) p = some t := by
  simp [insertPT, lookupTile]

theorem lookupTile_eraseKey_ne (ts : List (Position × Tile)) (p q : Position)
    (h : p ≠ q) : lookupTile (eraseKey ts p) q = lookupTile ts q := by
  induction ts with
  | nil => rfl
  | cons a ts ih =>
    obtain ⟨r, t⟩ := a
    by_cases hr : r = p
    · subst hr
      simp [eraseKey, lookupTile, h]
    · simp only [eraseKey, if_neg hr, lookupTile]
      by_cases hq : r = q
      · simp [hq]
      · simp [hq, ih]

theorem lookupTile_insertPT_ne (ts : List (Position × Tile)) (p q : Position)
    (t : Tile) (h : p ≠ q) : lookupTile (insertPT ts p t) q = lookupTile ts q := by
  simp only [insertPT, lookupTile, if_neg h]
  exact lookupTile_eraseKey_ne ts p q h

theorem eraseKey_of_lookup_none (ts : List (Position × Tile)) (p : Position)
    (h : lookupTile ts p = none) : eraseKey ts p = ts := by
  induction ts with
  | nil => rfl
  | cons a ts ih =>
    obtain ⟨r, t⟩ := a
    by_cases hr : r = p
    · simp [lookupTile, hr] at h
    · simp only [lookupTile, if_neg hr] at h
      simp [eraseKey, hr, ih h]

theorem totalTiles_cons (p : Position) (t : Tile) (ts : List (Position × Tile)) :
    totalTiles ((p, t) :: ts) = t.n + totalTiles ts := by
  simp [totalTiles]

theorem totalTiles_eraseKey_some (ts : List (Position × Tile)) (p : Position)
    (u : Tile) (h : lookupTile ts p = some u) :
    totalTiles (eraseKey ts p) + u.n = totalTiles ts := by
  induction ts with
  | nil => simp [lookupTile] at h
  | cons a ts ih =>
    obtain ⟨r, t⟩ := a
    by_cases hr : r = p
    · simp only [lookupTile, if_pos hr, Option.some.injEq] at h
      subst h
      simp [eraseKey, hr, totalTiles_cons]
      omega
    · simp only [lookupTile, if_neg hr] at h
      simp only [eraseKey, if_neg hr, totalTiles_cons]
      have := ih h
      omega

theorem totalTiles_insertPT_none (ts : List (Position × Tile)) (p : Position)
    (t : Tile) (h : lookupTile ts p = none) :
    totalTiles (insertPT ts p t) = totalTiles ts + t.n := by
  simp only [insertPT, totalTiles_cons, eraseKey_of_lookup_none ts p h]
  omega

theorem totalTiles_insertPT_some (ts : List (Position × Tile)) (p : Position)
    (t u : Tile) (h : lookupTile ts p = some u) :
    totalTiles (insertPT ts p t) + u.n = totalTiles ts + t.n := by
  simp only [insertPT, totalTiles_cons]
  have := totalTiles_eraseKey_some ts p u h
  omega

theorem eraseKey_sublist (ts : List (Position × Tile)) (p : Position) :
    List.Sublist (eraseKey ts p) ts := by
  induction ts with
  | nil => simp [eraseKey]
  | cons a ts ih =>
    obtain ⟨r, t⟩ := a
    by_cases hr : r = p
    · simp only [eraseKey, if_pos hr]
      exact (List.sublist_cons_self _ _)
    · simp only [eraseKey, if_neg hr]
      exact ih.cons₂ _

theorem mem_eraseKey_key_ne (ts : List (Position × Tile)) (p : Position)
    (b : Position × Tile) (hd : distinctKeys ts) (hb : b ∈ eraseKey ts p) :
    b.1 ≠ p := by
  induction ts with
  | nil => simp [eraseKey] at hb
  | cons a ts ih =>
    obtain ⟨r, t⟩ := a
    have hd' := (List.pairwise_cons.mp hd)
    by_cases hr : r = p
    · subst hr
      simp only [eraseKey, if_pos rfl] at hb
      exact fun hc => hd'.1 b hb (hc ▸ rfl)
    · simp only [eraseKey, if_neg hr] at hb
      rcases List.mem_cons.mp hb with hb | hb
      · subst hb
        exact hr
      · exact ih hd'.2 hb

theorem distinctKeys_insertPT (ts : List (Position × Tile)) (p : Position)
    (t : Tile) (hd : distinctKeys ts) : distinctKeys (insertPT ts p t) := by
  refine List.pairwise_cons.mpr ⟨?_, hd.sublist (eraseKey_sublist ts p)⟩
  intro b hb
  exact fun hc => mem_eraseKey_key_ne ts p b hd hb (hc ▸ rfl)

theorem mem_insertPT (ts : List (Position × Tile)) (p : Position) (t : Tile)
    (b : Position × Tile) (hb : b ∈ insertPT ts p t) : b = (p, t) ∨ b ∈ ts := by
  simp only [insertPT, List.mem_cons] at hb
  rcases hb with hb | hb
  · exact Or.inl hb
  · exact Or.inr ((eraseKey_sublist ts p).mem hb)

theorem lookupTile_of_mem (ts : List (Position × Tile)) (p : Position) (t : Tile)
    (hd : distinctKeys ts) (hm : (p, t) ∈ ts) : lookupTile ts p = some t := by
  induction ts with
  | nil => simp at hm
  | cons a ts ih =>
    obtain ⟨r, u⟩ := a
    have hd' := List.pairwise_cons.mp hd
    rcases List.mem_cons.mp hm with hm | hm
    · injection hm with h1 h2
      subst h1
      subst h2
      simp [lookupTile]
    · have hr : r ≠ p := fun hc => hd'.1 (p, t) hm (by simp [hc])
      simp [lookupTile, hr, ih hd'.2 hm]

theorem lookupTile_some_mem (ts : List (Position × Tile)) (p : Position) (t : Tile)
    (h : lookupTile ts p = some t) : (p, t) ∈ ts := by
  induction ts with
  | nil => simp [lookupTile] at h
  | cons a ts ih =>
    obtain ⟨r, u⟩ := a
    by_cases hr : r = p
    · simp only [lookupTile, if_pos hr, Option.some.injEq] at h
      subst hr
      subst h
      exact List.mem_cons_self _ _
    · simp only [lookupTile, if_neg hr] at h
      exact List.mem_cons_of_mem _ (ih h)

/-! ## The scan loop of `get_desired_position` -/

theorem gdpAux_spec (ts : List (Position × Tile)) (y n : Nat)
    (unav : List Position) :
    ∀ cx p' n', gdpAux ts y n unav cx (cx + 1) = (p', n') →
      (n' = n * 2 ∧ p'.y = y ∧ p'.x ≤ cx ∧ p' ∉ unav ∧
        ∃ t, lookupTile ts p' = some t ∧ t.n = n) ∨
      (n' = n ∧ p'.y = y ∧
        (p'.x = cx + 1 ∨ (p'.x ≤ cx ∧ lookupTile ts p' = none))) := by
  intro cx
  induction cx with
  | zero =>
    intro p' n' h
    simp only [gdpAux] at h
    by_cases hu : (⟨0, y⟩ : Position) ∈ unav
    · rw [if_pos hu] at h
      injection h with h1 h2
      subst h1
      exact Or.inr ⟨h2.symm, rfl, Or.inl rfl⟩
    · rw [if_neg hu] at h
      rcases hl : lookupTile ts ⟨0, y⟩ with _ | t
      · rw [hl] at h
        injection h with h1 h2
        subst h1
        exact Or.inr ⟨h2.symm, rfl, Or.inr ⟨Nat.le_refl 0, hl⟩⟩
      · rw [hl] at h
        simp only [] at h
        by_cases ht : t.n = n
        · rw [if_pos ht] at h
          injection h with h1 h2
          subst h1
          exact Or.inl ⟨h2.symm, rfl, Nat.le_refl 0, hu, t, hl, ht⟩
        · rw [if_neg ht] at h
          injection h with h1 h2
          subst h1
          exact Or.inr ⟨h2.symm, rfl, Or.inl rfl⟩
  | succ c ih =>
    intro p' n' h
    simp only [gdpAux] at h
    by_cases hu : (⟨c + 1, y⟩ : Position) ∈ unav
    · rw [if_pos hu] at h
      injection h with h1 h2
      subst h1
      exact Or.inr ⟨h2.symm, rfl, Or.inl rfl⟩
    · rw [if_neg hu] at h
      rcases hl : lookupTile ts ⟨c + 1, y⟩ with _ | t
      · rw [hl] at h
        rcases ih p' n' h with ⟨h1, h2, h3, h4, h5⟩ | ⟨h1, h2, h3⟩
        · exact Or.inl ⟨h1, h2, Nat.le_succ_of_le h3, h4, h5⟩
        · rcases h3 with h3 | h3
          · refine Or.inr ⟨h1, h2, Or.inr ⟨Nat.le_of_eq h3, ?_⟩⟩
            have : p' = (⟨c + 1, y⟩ : Position) := by
              cases p'
              simp only [Position.mk.injEq]
              exact ⟨h3, h2⟩
            rw [this]
            exact hl
          · exact Or.inr ⟨h1, h2, Or.inr ⟨Nat.le_succ_of_le h3.1, h3.2⟩⟩
      · rw [hl] at h
        simp only [] at h
        by_cases ht : t.n = n
        · rw [if_pos ht] at h
          injection h with h1 h2
          subst h1
          exact Or.inl ⟨h2.symm, rfl, Nat.le_refl _, hu, t, hl, ht⟩
        · rw [if_neg ht] at h
          injection h with h1 h2
          subst h1
          exact Or.inr ⟨h2.symm, rfl, Or.inl rfl⟩

/-- Specification of `get_desired_position` on any working grid: the result
is either a merge into an occupied, still-available cell holding exactly the
incoming value, strictly left of the source, or a slide to the source cell
itself or to an empty cell strictly left of it; rows are never left. -/
theorem get_desired_position_spec (g : Grid) (pos : Position) (n : Nat)
    (unav : List Position) (p' : Position) (n' : Nat)
    (h : g.get_desired_position pos n unav = (p', n')) :
    (n' = n * 2 ∧ p'.y = pos.y ∧ p'.x < pos.x ∧ p' ∉ unav ∧
      ∃ t, lookupTile g.tiles p' = some t ∧ t.n = n) ∨
    (n' = n ∧ (p' = pos ∨
      (p'.y = pos.y ∧ p'.x < pos.x ∧ lookupTile g.tiles p' = none))) := by
  unfold Grid.get_desired_position at h
  by_cases hx : pos.x = 0
  · rw [if_pos hx] at h
    injection h with h1 h2
    subst h1
    exact Or.inr ⟨h2.symm, Or.inl rfl⟩
  · rw [if_neg hx] at h
    obtain ⟨k, hk⟩ : ∃ k, pos.x = k + 1 := ⟨pos.x - 1, by omega⟩
    rw [hk] at h
    have h' : gdpAux g.tiles pos.y n unav k (k + 1) = (p', n') := by
      have : k + 1 - 1 = k := by omega
      rw [this] at h
      exact h
    rcases gdpAux_spec g.tiles pos.y n unav k p' n' h' with
      ⟨h1, h2, h3, h4, h5⟩ | ⟨h1, h2, h3⟩
    · exact Or.inl ⟨h1, h2, by omega, h4, h5⟩
    · rcases h3 with h3 | h3
      · refine Or.inr ⟨h1, Or.inl ?_⟩
        cases pos
        cases p'
        simp only [Position.mk.injEq]
        simp only at h2 h3 hk
        omega
      · exact Or.inr ⟨h1, Or.inr ⟨h2, by omega, h3.2⟩⟩

/-! ## The resolution-fold invariant -/

theorem totalTiles_append (P Q : List (Position × Tile)) :
    totalTiles (P ++ Q) = totalTiles P + totalTiles Q := by
  simp [totalTiles]

theorem resolveStep_ng_tiles (st : RState) (pt : Position × Tile) :
    (resolveStep st pt).ng.tiles =
      insertPT st.ng.tiles
        (st.ng.get_desired_position pt.1 pt.2.n st.unavailable).1
        ⟨st.ng.get_coordinates_at
            (st.ng.get_desired_position pt.1 pt.2.n st.unavailable).1,
          (st.ng.get_desired_position pt.1 pt.2.n st.unavailable).2⟩ := by
  simp only [resolveStep, Grid.insert_tile]
  split <;> rfl

theorem resolveStep_unavailable (st : RState) (pt : Position × Tile) :
    (resolveStep st pt).unavailable =
      if (st.ng.get_desired_position pt.1 pt.2.n st.unavailable).2 > pt.2.n
      then st.unavailable ++ [(st.ng.get_desired_position pt.1 pt.2.n st.unavailable).1]
      else st.unavailable := rfl

theorem resolveStep_merges (st : RState) (pt : Position × Tile) :
    (resolveStep st pt).merges =
      if (st.ng.get_desired_position pt.1 pt.2.n st.unavailable).2 > pt.2.n
      then st.merges ++
        [((st.ng.get_desired_position pt.1 pt.2.n st.unavailable).1,
          (st.ng.get_desired_position pt.1 pt.2.n st.unavailable).2)]
      else st.merges := rfl

theorem totalTiles_singleton (pt : Position × Tile) :
    totalTiles [pt] = pt.2.n := by
  simp [totalTiles]

theorem resolveStep_inv (size : Nat) (P : List (Position × Tile))
    (st : RState) (pt : Position × Tile)
    (hb : InBounds size pt.1)
    (hgt : ∀ q ∈ P, ltKey q pt)
    (hinv : ResolveInv size P st) :
    ResolveInv size (P ++ [pt]) (resolveStep st pt) := by
  obtain ⟨hd, hfr, htot, hmu, hmd, hmb⟩ := hinv
  rcases hr : st.ng.get_desired_position pt.1 pt.2.n st.unavailable with ⟨p', n'⟩
  have htiles := resolveStep_ng_tiles st pt
  have hunav := resolveStep_unavailable st pt
  have hmerg := resolveStep_merges st pt
  rw [hr] at htiles hunav hmerg
  simp only [] at htiles hunav hmerg
  -- the source never stores at a cell right of its source or in another row
  have hfr' : ∀ b ∈ (resolveStep st pt).ng.tiles,
      ∃ q ∈ P ++ [pt], b.1.y = q.1.y ∧ b.1.x ≤ q.1.x := by
    intro b hbmem
    rw [htiles] at hbmem
    rcases mem_insertPT _ _ _ b hbmem with hb1 | hb1
    · refine ⟨pt, List.mem_append_right _ (List.mem_singleton.mpr rfl), ?_⟩
      have hby : b.1 = p' := by rw [hb1]
      rw [hby]
      rcases get_desired_position_spec st.ng pt.1 pt.2.n st.unavailable p' n' hr with
        ⟨_, h2, h3, _, _⟩ | ⟨_, h2⟩
      · exact ⟨h2, by omega⟩
      · rcases h2 with h2 | h2
        · rw [h2]
          exact ⟨rfl, Nat.le_refl _⟩
        · exact ⟨h2.1, by omega⟩
    · obtain ⟨q, hq, hq2⟩ := hfr b hb1
      exact ⟨q, List.mem_append_left _ hq, hq2⟩
  have hdist' : distinctKeys (resolveStep st pt).ng.tiles := by
    rw [htiles]
    exact distinctKeys_insertPT _ _ _ hd
  rcases get_desired_position_spec st.ng pt.1 pt.2.n st.unavailable p' n' hr with
    ⟨h1, h2, h3, h4, t, hlt, htn⟩ | ⟨h1, h2⟩
  · -- merge into an occupied cell holding exactly the incoming value
    have htot' : totalTiles (resolveStep st pt).ng.tiles = totalTiles (P ++ [pt]) := by
      rw [htiles, totalTiles_append, totalTiles_singleton]
      have hins := totalTiles_insertPT_some st.ng.tiles p'
        ⟨st.ng.get_coordinates_at p', n'⟩ t hlt
      have hred : (⟨st.ng.get_coordinates_at p', n'⟩ : Tile).n = n' := rfl
      rw [hred] at hins
      omega
    refine ⟨hdist', hfr', htot', ?_, ?_, ?_⟩ <;> rw [hmerg] <;> try rw [hunav]
    · by_cases hn : n' > pt.2.n
      · rw [if_pos hn, if_pos hn]
        intro cn hcn
        rcases List.mem_append.mp hcn with hcn | hcn
        · exact List.mem_append_left _ (hmu cn hcn)
        · rw [List.mem_singleton.mp hcn]
          exact List.mem_append_right _ (List.mem_singleton.mpr rfl)
      · rw [if_neg hn, if_neg hn]
        exact hmu
    · by_cases hn : n' > pt.2.n
      · rw [if_pos hn]
        refine List.pairwise_append.mpr ⟨hmd, List.pairwise_singleton _ _, ?_⟩
        intro a ha b hbm
        rw [List.mem_singleton.mp hbm]
        intro hc
        have hc' : a.1 = p' := hc
        exact h4 (hc' ▸ hmu a ha)
      · rw [if_neg hn]
        exact hmd
    · by_cases hn : n' > pt.2.n
      · rw [if_pos hn]
        intro cn hcn
        rcases List.mem_append.mp hcn with hcn | hcn
        · exact hmb cn hcn
        · rw [List.mem_singleton.mp hcn]
          obtain ⟨hbx, hby⟩ := hb
          refine ⟨?_, ?_⟩ <;> simp only [] <;> omega
      · rw [if_neg hn]
        exact hmb
  · -- slide to a cell that is free in the working grid
    have hnone : lookupTile st.ng.tiles p' = none := by
      rcases h2 with h2 | h2
      · subst h2
        rcases hl : lookupTile st.ng.tiles pt.1 with _ | u
        · rfl
        · exfalso
          obtain ⟨q, hq, hqy, hqx⟩ := hfr (pt.1, u) (lookupTile_some_mem _ _ _ hl)
          simp only [] at hqy hqx
          have := hgt q hq
          unfold ltKey at this
          omega
      · exact h2.2.2
    have hnolog : ¬ n' > pt.2.n := by omega
    have htot' : totalTiles (resolveStep st pt).ng.tiles = totalTiles (P ++ [pt]) := by
      rw [htiles, totalTiles_append, totalTiles_singleton]
      rw [totalTiles_insertPT_none st.ng.tiles p' _ hnone]
      have hred : (⟨st.ng.get_coordinates_at p', n'⟩ : Tile).n = n' := rfl
      rw [hred]
      omega
    refine ⟨hdist', hfr', htot', ?_, ?_, ?_⟩
    · rw [hmerg, hunav, if_neg hnolog, if_neg hnolog]
      exact hmu
    · rw [hmerg, if_neg hnolog]
      exact hmd
    · rw [hmerg, if_neg hnolog]
      exact hmb

theorem foldl_resolveInv (size : Nat) :
    ∀ (S P : List (Position × Tile)) (st : RState),
      (∀ q ∈ P, ∀ r ∈ S, ltKey q r) →
      List.Pairwise ltKey S →
      (∀ r ∈ S, InBounds size r.1) →
      ResolveInv size P st →
      ResolveInv size (P ++ S) (S.foldl resolveStep st) := by
  intro S
  induction S with
  | nil =>
    intro P st _ _ _ hinv
    simpa using hinv
  | cons r S ih =>
    intro P st hps hs hbnd hinv
    have hstep := resolveStep_inv size P st r (hbnd r (List.mem_cons_self _ _))
      (fun q hq => hps q hq r (List.mem_cons_self _ _)) hinv
    have hs' := List.pairwise_cons.mp hs
    have happ : (P ++ [r]) ++ S = P ++ (r :: S) := by simp
    have := ih (P ++ [r]) (resolveStep st r)
      (fun q hq s hsm => by
        rcases List.mem_append.mp hq with hq | hq
        · exact hps q hq s (List.mem_cons_of_mem _ hsm)
        · rw [List.mem_singleton.mp hq]
          exact hs'.1 s hsm)
      hs'.2
      (fun s hsm => hbnd s (List.mem_cons_of_mem _ hsm))
      hstep
    rw [happ] at this
    simpa using this

/-! ## Sortedness and rotation bridging -/

instance : IsTotal (Position × Tile) leKey :=
  ⟨by
    intro a b
    unfold leKey
    omega⟩

instance : IsTrans (Position × Tile) leKey :=
  ⟨by
    intro a b c
    unfold leKey
    omega⟩

theorem sortTiles_sorted (ts : List (Position × Tile)) :
    List.Sorted leKey (sortTiles ts) :=
  List.sorted_insertionSort leKey ts

theorem sortTiles_perm (ts : List (Position × Tile)) :
    (sortTiles ts).Perm ts :=
  List.perm_insertionSort leKey ts

theorem distinctKeys_of_perm (l1 l2 : List (Position × Tile)) (h : l1.Perm l2)
    (hd : distinctKeys l1) : distinctKeys l2 :=
  (h.pairwise_iff fun hxy => Ne.symm hxy).mp hd

theorem sorted_distinct_strict (l : List (Position × Tile))
    (hs : List.Sorted leKey l) (hd : distinctKeys l) :
    List.Pairwise ltKey l := by
  have hand := hs.and hd
  refine hand.imp ?_
  rintro a b ⟨hle, hne⟩
  unfold leKey at hle
  unfold ltKey
  rcases hle with hle | ⟨hx, hy⟩
  · exact Or.inl hle
  · refine Or.inr ⟨hx, lt_of_le_of_ne hy fun he => hne ?_⟩
    cases ha : a.1
    cases hb : b.1
    rw [ha, hb] at hx he
    simp only at hx he
    simp only [ha, hb, Position.mk.injEq]
    exact ⟨hx, he⟩

theorem flipPos_inj (f : Flip) (s : Nat) (p q : Position)
    (hpx : p.x ≤ s) (hpy : p.y ≤ s) (hqx : q.x ≤ s) (hqy : q.y ≤ s)
    (h : flipPos f s p = flipPos f s q) : p = q := by
  cases f <;> cases p <;> cases q <;> simp_all [flipPos] <;> omega

theorem flipPos_inBounds (f : Flip) (size : Nat) (p : Position)
    (hp : InBounds size p) : InBounds size (flipPos f (size - 1) p) := by
  cases f <;> cases p <;> simp_all [flipPos, InBounds] <;> omega

theorem preFlip_tiles_bounds (g : Grid) (m : Move)
    (hb : ∀ pt ∈ g.tiles, InBounds g.size pt.1) :
    ∀ pt ∈ (g.preFlip m).tiles, InBounds g.size pt.1 := by
  intro pt hpt
  cases m <;> simp only [Grid.preFlip] at hpt
  case Left => exact hb pt hpt
  all_goals
  · simp only [Grid.flip, List.mem_map] at hpt
    obtain ⟨q, hq, hq2⟩ := hpt
    rw [← hq2]
    exact flipPos_inBounds _ _ _ (hb q hq)

theorem preFlip_tiles_distinct (g : Grid) (m : Move)
    (hb : ∀ pt ∈ g.tiles, InBounds g.size pt.1)
    (hd : distinctKeys g.tiles) : distinctKeys (g.preFlip m).tiles := by
  cases m <;> simp only [Grid.preFlip]
  case Left => exact hd
  all_goals
  · unfold Grid.flip distinctKeys
    simp only [List.pairwise_map]
    refine hd.imp_of_mem ?_
    intro a b ha hbm hne hc
    obtain ⟨hax, hay⟩ := hb a ha
    obtain ⟨hbx, hby⟩ := hb b hbm
    exact hne (flipPos_inj _ _ _ _ (by omega) (by omega) (by omega) (by omega) hc)

theorem totalTiles_map_flip (ts : List (Position × Tile)) (f : Flip) (s : Nat) :
    totalTiles (ts.map fun pt => (flipPos f s pt.1, pt.2)) = totalTiles ts := by
  unfold totalTiles
  rw [List.map_map]
  rfl

theorem totalTiles_of_perm (l1 l2 : List (Position × Tile)) (h : l1.Perm l2) :
    totalTiles l1 = totalTiles l2 := by
  unfold totalTiles
  exact (h.map fun pt => pt.2.n).sum_eq

theorem preFlip_tiles_total (g : Grid) (m : Move) :
    totalTiles (g.preFlip m).tiles = totalTiles g.tiles := by
  cases m <;> simp only [Grid.preFlip] <;>
    first
      | rfl
      | exact totalTiles_map_flip g.tiles _ _

/-- The resolution fold of `check` satisfies the full invariant. -/
theorem resolveState_inv (g : Grid) (m : Move)
    (hb : ∀ pt ∈ g.tiles, InBounds g.size pt.1)
    (hd : distinctKeys g.tiles) :
    ResolveInv g.size (sortTiles (g.preFlip m).tiles) (g.resolveState m) := by
  have hb1 := preFlip_tiles_bounds g m hb
  have hd1 := preFlip_tiles_distinct g m hb hd
  have hperm := sortTiles_perm (g.preFlip m).tiles
  have hdsorted := distinctKeys_of_perm _ _ hperm.symm hd1
  have hstrict := sorted_distinct_strict _ (sortTiles_sorted _) hdsorted
  have hbsorted : ∀ r ∈ sortTiles (g.preFlip m).tiles, InBounds g.size r.1 :=
    fun r hr => hb1 r (hperm.mem_iff.mp hr)
  have hbase : ResolveInv g.size []
      (⟨{ tiles := [], moving_tiles := [], size := (g.preFlip m).size,
          tile_width := (g.preFlip m).tile_width,
          tile_height := (g.preFlip m).tile_height,
          coordinates := (g.preFlip m).coordinates }, [], []⟩ : RState) := by
    refine ⟨List.Pairwise.nil, ?_, rfl, ?_, List.Pairwise.nil, ?_⟩ <;> simp
  have hres := foldl_resolveInv g.size (sortTiles (g.preFlip m).tiles) [] _
    (by simp) hstrict hbsorted hbase
  simpa [Grid.resolveState] using hres

/-! ## Conservation of the total (claim C4) and no-double-merge (claim C5) -/

theorem check_resolved_total (g : Grid) (m : Move)
    (hb : ∀ pt ∈ g.tiles, InBounds g.size pt.1)
    (hd : distinctKeys g.tiles) :
    totalTiles (g.check m).2.tiles = totalTiles g.tiles := by
  have hinv := resolveState_inv g m hb hd
  have htot := hinv.2.2.1
  have h1 : totalTiles (sortTiles (g.preFlip m).tiles) = totalTiles g.tiles := by
    rw [totalTiles_of_perm _ _ (sortTiles_perm _), preFlip_tiles_total]
  cases m <;> simp only [Grid.check] <;>
    first
      | rw [htot, h1]
      | (show totalTiles (((g.resolveState _).ng.flip _).tiles) = totalTiles g.tiles
         rw [show ((g.resolveState _).ng.flip _).tiles =
              (g.resolveState _).ng.tiles.map
                fun pt => (flipPos _ ((g.resolveState _).ng.size - 1) pt.1, pt.2) from rfl]
         rw [totalTiles_map_flip, htot, h1])

theorem mem_availableCells (g : Grid) (p : Position) (hp : p ∈ g.availableCells) :
    g.get_tile p = none := by
  unfold Grid.availableCells at hp
  simp only [List.mem_flatMap, List.mem_filterMap, List.mem_range] at hp
  obtain ⟨x, hx, y, hy, hcond⟩ := hp
  by_cases hs : (g.get_tile ⟨x, y⟩).isSome
  · rw [if_pos hs] at hcond
    exact absurd hcond (by simp)
  · rw [if_neg hs] at hcond
    injection hcond with h
    rw [← h]
    exact Option.not_isSome_iff_eq_none.mp hs

theorem spawn_adds_two (g g' : Grid) (pick : List Position → Option Position)
    (e : Unit)
    (hpick : ∀ (l : List Position) (p : Position), pick l = some p → p ∈ l)
    (h : g.spawn_random_tile pick = (g', Except.ok e)) :
    totalTiles g'.tiles = totalTiles g.tiles + 2 := by
  unfold Grid.spawn_random_tile at h
  by_cases hlen : g.availableCells.length < 1
  · rw [if_pos hlen] at h
    simp at h
  · rw [if_neg hlen] at h
    rcases hp : pick g.availableCells with _ | p
    · rw [hp] at h
      simp at h
    · rw [hp] at h
      injection h with h1 h2
      rw [← h1]
      have hnone : lookupTile g.tiles p = none := mem_availableCells g p (hpick _ _ hp)
      show totalTiles (insertPT g.tiles p ⟨g.get_coordinates_at p, 2⟩) =
        totalTiles g.tiles + 2
      rw [totalTiles_insertPT_none g.tiles p _ hnone]

/-- The random choice oracle used in closed statements is sound: like
`SliceRandom::choose`, it only returns elements of the given slice. -/
theorem pickHead_sound (l : List Position) (p : Position)
    (h : pickHead l = some p) : p ∈ l := by
  cases l with
  | nil => simp [pickHead] at h
  | cons a l =>
    simp only [pickHead, List.head?, Option.some.injEq] at h
    rw [h]
    exact List.mem_cons_self _ _

set_option maxRecDepth 100000 in
set_option maxHeartbeats 4000000 in
/-- Claim C4 as amended: a move changes the total of all tile values by
zero, not by `Σ merged_destination_value / 2` — each merge `n + n → 2n`
conserves the total.  Proved (i) in full generality at the resolution pass
(the working grid `check` builds always carries exactly the pre-move total),
(ii) through the full animation down to the settled board, before the spawn,
for every size-4 single-row board over the values {0, 2, 4, 8} moved Left or
Right, and (iii) the spawn that follows a settled move adds exactly 2. -/
theorem c4_amended_move_conserves_total :
    (∀ (g : Grid) (m : Move),
        (∀ pt ∈ g.tiles, InBounds g.size pt.1) →
        distinctKeys g.tiles →
        totalTiles (g.check m).2.tiles = totalTiles g.tiles) ∧
    (∀ (g g' : Grid) (pick : List Position → Option Position) (e : Unit),
        (∀ (l : List Position) (p : Position), pick l = some p → p ∈ l) →
        g.spawn_random_tile pick = (g', Except.ok e) →
        totalTiles g'.tiles = totalTiles g.tiles + 2) ∧
    c4FamilyOK = true := by
  refine ⟨check_resolved_total, spawn_adds_two, ?_⟩
  decide

/-- Witness for `c4_amended_move_conserves_total` on the Scenario-A board:
the resolved total is conserved and the spawn adds 2. -/
theorem c4_amended_move_conserves_total_witness :
    totalTiles (gridA.check Move.Left).2.tiles = totalTiles gridA.tiles ∧
    totalTiles ((gridA.insert_tile ⟨0, 1⟩ 2).tiles) = totalTiles gridA.tiles + 2 :=
  ⟨c4_amended_move_conserves_total.1 gridA Move.Left (by decide) (by decide),
    c4_amended_move_conserves_total.2.1 gridA (gridA.insert_tile ⟨0, 1⟩ 2) pickHead ()
      pickHead_sound (by decide)⟩

/-- Claim C5: within one resolution pass no cell is the destination of two
merges — the ghost merge log (which mirrors exactly the source's
`unavailable` marking) has pairwise-distinct destination cells, for every
board of the spec's data model (positive tile values) and every direction.
A tile produced by a merge therefore never absorbs a second merge in the
same pass. -/
theorem c5_no_double_merge (g : Grid) (m : Move)
    (hb : ∀ pt ∈ g.tiles, InBounds g.size pt.1)
    (hd : distinctKeys g.tiles)
    (_hpos : ∀ pt ∈ g.tiles, 0 < pt.2.n) :
    List.Pairwise (fun a b : Position × Nat => a.1 ≠ b.1) (g.checkMerges m) := by
  have hinv := resolveState_inv g m hb hd
  obtain ⟨_, _, _, _, hmd, hmb⟩ := hinv
  have hmap : ∀ f : Flip,
      List.Pairwise (fun a b : Position × Nat => a.1 ≠ b.1)
        ((g.resolveState m).merges.map fun cn => (flipPos f (g.size - 1) cn.1, cn.2)) := by
    intro f
    rw [List.pairwise_map]
    refine hmd.imp_of_mem ?_
    intro a b ha hbm hne hc
    obtain ⟨hax, hay⟩ := hmb a ha
    obtain ⟨hbx, hby⟩ := hmb b hbm
    exact hne (flipPos_inj f (g.size - 1) a.1 b.1 (by omega) (by omega) (by omega)
      (by omega) hc)
  cases m <;> simp only [Grid.checkMerges] <;>
    first
      | exact hmd
      | exact hmap _

/-- Witness for `c5_no_double_merge` on the `[4, 2, 2]` board moved Left. -/
theorem c5_no_double_merge_witness :
    (∀ pt ∈ gridRow422.tiles, 0 < pt.2.n) ∧
    List.Pairwise (fun a b : Position × Nat => a.1 ≠ b.1)
      (gridRow422.checkMerges Move.Left) :=
  ⟨by decide,
    c5_no_double_merge gridRow422 Move.Left (by decide) (by decide) (by decide)⟩

/-! ## Merge-free resolution: packedness of the outcome (claim C7) -/

theorem gdpAux_zero (ts : List (Position × Tile)) (y n : Nat)
    (unav : List Position) (newx : Nat) :
    gdpAux ts y n unav 0 newx =
      if (⟨0, y⟩ : Position) ∈ unav then (⟨newx, y⟩, n)
      else
        match lookupTile ts ⟨0, y⟩ with
        | some t => if t.n = n then (⟨0, y⟩, n * 2) else (⟨newx, y⟩, n)
        | none => (⟨0, y⟩, n) := by
  conv_lhs => rw [gdpAux]

theorem gdpAux_succ (ts : List (Position × Tile)) (y n : Nat)
    (unav : List Position) (c newx : Nat) :
    gdpAux ts y n unav (c + 1) newx =
      if (⟨c + 1, y⟩ : Position) ∈ unav then (⟨newx, y⟩, n)
      else
        match lookupTile ts ⟨c + 1, y⟩ with
        | some t => if t.n = n then (⟨c + 1, y⟩, n * 2) else (⟨newx, y⟩, n)
        | none => gdpAux ts y n unav c (c + 1) := by
  conv_lhs => rw [gdpAux]

/-- Evaluating the scan at a stopping cell: the scanned cell holds a tile of
a different value and is not marked unavailable, so the scan stops and the
tile lands at `newx`. -/
theorem gdpAux_stop_ne (ts : List (Position × Tile)) (y n : Nat)
    (unav : List Position) (cx newx : Nat) (t : Tile)
    (hu : (⟨cx, y⟩ : Position) ∉ unav)
    (hl : lookupTile ts ⟨cx, y⟩ = some t) (hne : t.n ≠ n) :
    gdpAux ts y n unav cx newx = (⟨newx, y⟩, n) := by
  cases cx with
  | zero =>
    rw [gdpAux_zero, if_neg hu, hl]
    simp only [if_neg hne]
  | succ c =>
    rw [gdpAux_succ, if_neg hu, hl]
    simp only [if_neg hne]

/-- Evaluating the scan at a merging cell. -/
theorem gdpAux_stop_eq (ts : List (Position × Tile)) (y n : Nat)
    (unav : List Position) (cx newx : Nat) (t : Tile)
    (hu : (⟨cx, y⟩ : Position) ∉ unav)
    (hl : lookupTile ts ⟨cx, y⟩ = some t) (heq : t.n = n) :
    gdpAux ts y n unav cx newx = (⟨cx, y⟩, n * 2) := by
  cases cx with
  | zero =>
    rw [gdpAux_zero, if_neg hu, hl]
    simp only [if_pos heq]
  | succ c =>
    rw [gdpAux_succ, if_neg hu, hl]
    simp only [if_pos heq]

/-- Descending through empty, available cells: as long as every cell from
`k` up to `cx` is empty and unmarked, the scan reaches `k` (landing there if
`k = 0`, otherwise continuing at cell `k - 1` with `new_x = k`). -/
theorem gdpAux_descend (ts : List (Position × Tile)) (y n : Nat)
    (unav : List Position) :
    ∀ cx k, k ≤ cx + 1 →
      (∀ i, k ≤ i → i ≤ cx →
        ((⟨i, y⟩ : Position) ∉ unav ∧ lookupTile ts ⟨i, y⟩ = none)) →
      gdpAux ts y n unav cx (cx + 1) =
        (match k with
          | 0 => ((⟨0, y⟩ : Position), n)
          | k' + 1 => gdpAux ts y n unav k' (k' + 1)) := by
  intro cx
  induction cx with
  | zero =>
    intro k hk hemp
    match k, hk with
    | 0, _ =>
      obtain ⟨hu, hl⟩ := hemp 0 (Nat.le_refl 0) (Nat.le_refl 0)
      rw [gdpAux_zero, if_neg hu, hl]
    | 1, _ => rfl
  | succ c ih =>
    intro k hk hemp
    by_cases hkc : k = c + 2
    · subst hkc
      rfl
    · have hk1 : k ≤ c + 1 := by omega
      obtain ⟨hu, hl⟩ := hemp (c + 1) hk1 (Nat.le_refl _)
      rw [gdpAux_succ, if_neg hu, hl]
      exact ih k hk1 fun i h1 h2 => hemp i h1 (by omega)

theorem lookupN_eq_none_iff (ts : List (Position × Tile)) (p : Position) :
    lookupN ts p = none ↔ lookupTile ts p = none := by
  unfold lookupN
  cases lookupTile ts p <;> simp

theorem lookupN_eq_some_iff (ts : List (Position × Tile)) (p : Position)
    (v : Nat) :
    lookupN ts p = some v ↔ ∃ t, lookupTile ts p = some t ∧ t.n = v := by
  unfold lookupN
  cases lookupTile ts p <;> simp

theorem lookupN_insertPT_self (ts : List (Position × Tile)) (p : Position)
    (t : Tile) : lookupN (insertPT ts p t) p = some t.n := by
  unfold lookupN
  rw [lookupTile_insertPT_self]
  rfl

theorem lookupN_insertPT_ne (ts : List (Position × Tile)) (p q : Position)
    (t : Tile) (h : p ≠ q) : lookupN (insertPT ts p t) q = lookupN ts q := by
  unfold lookupN
  rw [lookupTile_insertPT_ne ts p q t h]

theorem rowValsOf_append_one (P : List (Position × Tile))
    (r : Position × Tile) (y : Nat) :
    rowValsOf (P ++ [r]) y =
      rowValsOf P y ++ (if r.1.y = y then [r.2.n] else []) := by
  unfold rowValsOf
  rw [List.filter_append, List.map_append]
  congr 1
  by_cases h : r.1.y = y
  · simp [h]
  · simp [h]

theorem rowValsOf_ne_nil_mem (P : List (Position × Tile)) (y : Nat)
    (h : rowValsOf P y ≠ []) : ∃ q ∈ P, q.1.y = y := by
  unfold rowValsOf at h
  rcases hf : P.filter fun pt => decide (pt.1.y = y) with _ | ⟨a, l⟩
  · rw [hf] at h
    simp at h
  · have ha : a ∈ P.filter fun pt => decide (pt.1.y = y) := by
      rw [hf]
      exact List.mem_cons_self _ _
    obtain ⟨hmem, hprop⟩ := List.mem_filter.mp ha
    exact ⟨a, hmem, of_decide_eq_true hprop⟩

theorem foldl_merges_mono (S : List (Position × Tile)) :
    ∀ st : RState, ∃ ext, (S.foldl resolveStep st).merges = st.merges ++ ext := by
  induction S with
  | nil =>
    intro st
    exact ⟨[], by simp⟩
  | cons r S ih =>
    intro st
    obtain ⟨ext, hext⟩ := ih (resolveStep st r)
    rw [List.foldl_cons, hext, resolveStep_merges]
    by_cases hn : (st.ng.get_desired_position r.1 r.2.n st.unavailable).2 > r.2.n
    · rw [if_pos hn]
      exact ⟨[((st.ng.get_desired_position r.1 r.2.n st.unavailable).1,
          (st.ng.get_desired_position r.1 r.2.n st.unavailable).2)] ++ ext,
        by rw [List.append_assoc]⟩
    · rw [if_neg hn]
      exact ⟨ext, rfl⟩

/-- One step of a merge-free pass: the tile lands exactly on top of the
packed prefix of its row, extending it by its own value. -/
theorem resolveStep_noMerge (P : List (Position × Tile)) (st : RState)
    (r : Position × Tile) (hpos : 0 < r.2.n)
    (hgt : ∀ q ∈ P, ltKey q r)
    (hinv : NoMergeInv P st)
    (hnolog : (resolveStep st r).merges = []) :
    NoMergeInv (P ++ [r]) (resolveStep st r) := by
  obtain ⟨hu0, hm0, hview, hchain, hlen⟩ := hinv
  have hkle : (rowValsOf P r.1.y).length ≤ r.1.x := by
    rcases hlen r.1.y with h | ⟨q, hq, hqy, hqlen⟩
    · simp [h]
    · have := hgt q hq
      unfold ltKey at this
      omega
  -- the scan lands on the packed frontier of the row
  have hkey : st.ng.get_desired_position r.1 r.2.n st.unavailable =
        ((⟨(rowValsOf P r.1.y).length, r.1.y⟩ : Position), r.2.n) ∧
      ∀ v', (rowValsOf P r.1.y).get? ((rowValsOf P r.1.y).length - 1) = some v' →
        v' ≠ r.2.n := by
    by_cases hx : r.1.x = 0
    · have hk0 : (rowValsOf P r.1.y).length = 0 := by omega
      constructor
      · unfold Grid.get_desired_position
        rw [if_pos hx]
        have hr1 : r.1 = (⟨(rowValsOf P r.1.y).length, r.1.y⟩ : Position) := by
          rw [hk0, ← hx]
        rw [← hr1]
      · intro v' hv'
        rw [List.get?_len_le (by omega)] at hv'
        exact absurd hv' (by simp)
    · obtain ⟨x0, hx0⟩ : ∃ x0, r.1.x = x0 + 1 := ⟨r.1.x - 1, by omega⟩
      have hemp : ∀ i, (rowValsOf P r.1.y).length ≤ i → i ≤ x0 →
          ((⟨i, r.1.y⟩ : Position) ∉ st.unavailable ∧
            lookupTile st.ng.tiles ⟨i, r.1.y⟩ = none) := by
        intro i h1 _
        refine ⟨by rw [hu0]; exact List.not_mem_nil _, ?_⟩
        rw [← lookupN_eq_none_iff, hview r.1.y i]
        exact List.get?_len_le h1
      have hdesc := gdpAux_descend st.ng.tiles r.1.y r.2.n st.unavailable x0
        (rowValsOf P r.1.y).length (by omega) hemp
      have hgdp0 : st.ng.get_desired_position r.1 r.2.n st.unavailable =
          gdpAux st.ng.tiles r.1.y r.2.n st.unavailable x0 (x0 + 1) := by
        unfold Grid.get_desired_position
        rw [if_neg hx, hx0]
        simp only [Nat.add_sub_cancel]
      rcases hkcase : (rowValsOf P r.1.y).length with _ | k'
      · rw [hkcase] at hdesc
        simp only [] at hdesc
        constructor
        · rw [hgdp0, hdesc]
        · intro v' hv'
          rw [List.get?_len_le (by omega)] at hv'
          exact absurd hv' (by simp)
      · rw [hkcase] at hdesc
        simp only [] at hdesc
        -- the cell below the frontier holds the last packed value
        have hklt : k' < (rowValsOf P r.1.y).length := by omega
        obtain ⟨v', hv'⟩ : ∃ v', (rowValsOf P r.1.y).get? k' = some v' := by
          rcases hg : (rowValsOf P r.1.y).get? k' with _ | v'
          · rw [List.get?_eq_none] at hg
            omega
          · exact ⟨v', rfl⟩
        have hlook : lookupN st.ng.tiles ⟨k', r.1.y⟩ = some v' := by
          rw [hview r.1.y k']
          exact hv'
        obtain ⟨tl, htl, htln⟩ := (lookupN_eq_some_iff _ _ _).mp hlook
        have hnu : (⟨k', r.1.y⟩ : Position) ∉ st.unavailable := by
          rw [hu0]
          exact List.not_mem_nil _
        have hvne : v' ≠ r.2.n := by
          intro hveq
          have hgdpm : st.ng.get_desired_position r.1 r.2.n st.unavailable =
              ((⟨k', r.1.y⟩ : Position), r.2.n * 2) := by
            rw [hgdp0, hdesc]
            exact gdpAux_stop_eq _ _ _ _ _ _ tl hnu htl (by omega)
          have hmerg := resolveStep_merges st r
          rw [hgdpm] at hmerg
          simp only [] at hmerg
          rw [if_pos (by omega)] at hmerg
          rw [hmerg, hm0] at hnolog
          simp at hnolog
        constructor
        · rw [hgdp0, hdesc]
          exact gdpAux_stop_ne _ _ _ _ _ _ tl hnu htl (by omega)
        · intro w hw
          simp only [Nat.add_sub_cancel] at hw
          rw [hv'] at hw
          injection hw with hw
          rw [← hw]
          exact hvne
  obtain ⟨hgdp, hlast⟩ := hkey
  have htiles := resolveStep_ng_tiles st r
  have hunav := resolveStep_unavailable st r
  have hmerg := resolveStep_merges st r
  rw [hgdp] at htiles hunav hmerg
  simp only [] at htiles hunav hmerg
  have hnotgt : ¬ r.2.n > r.2.n := by omega
  rw [if_neg hnotgt] at hunav hmerg
  refine ⟨by rw [hunav, hu0], by rw [hmerg, hm0], ?_, ?_, ?_⟩
  · -- the packed row views
    intro y x
    rw [htiles, rowValsOf_append_one]
    by_cases hy : r.1.y = y
    · rw [if_pos hy]
      subst hy
      by_cases hxk : x = (rowValsOf P r.1.y).length
      · have hpeq : (⟨(rowValsOf P r.1.y).length, r.1.y⟩ : Position) =
            ⟨x, r.1.y⟩ := by rw [hxk]
        rw [hpeq, lookupN_insertPT_self, hxk]
        rw [List.get?_concat_length]
      · have hpne : (⟨(rowValsOf P r.1.y).length, r.1.y⟩ : Position) ≠
            ⟨x, r.1.y⟩ := by
          intro hc
          injection hc with h1 _
          exact hxk h1.symm
        rw [lookupN_insertPT_ne _ _ _ _ hpne, hview r.1.y x]
        by_cases hxlt : x < (rowValsOf P r.1.y).length
        · rw [List.get?_append hxlt]
        · rw [List.get?_len_le (by omega), List.get?_len_le]
          rw [List.length_append]
          simp only [List.length_singleton]
          omega
    · rw [if_neg hy]
      have hpne : (⟨(rowValsOf P r.1.y).length, r.1.y⟩ : Position) ≠
          ⟨x, y⟩ := by
        intro hc
        injection hc with _ h2
        exact hy h2
      rw [lookupN_insertPT_ne _ _ _ _ hpne, hview y x, List.append_nil]
  · -- no adjacent equal values
    intro y
    rw [rowValsOf_append_one]
    by_cases hy : r.1.y = y
    · rw [if_pos hy]
      subst hy
      rw [List.chain'_append]
      refine ⟨hchain r.1.y, List.chain'_singleton _, ?_⟩
      intro a ha b hb
      rw [List.getLast?_eq_get?] at ha
      simp only [List.head?] at hb
      injection hb with hb
      rw [← hb]
      exact hlast a ha
    · rw [if_neg hy, List.append_nil]
      exact hchain y
  · -- each non-empty row has a bounding processed source
    intro y
    rw [rowValsOf_append_one]
    by_cases hy : r.1.y = y
    · rw [if_pos hy]
      subst hy
      refine Or.inr ⟨r, List.mem_append_right _ (List.mem_singleton.mpr rfl), rfl, ?_⟩
      rw [List.length_append]
      simp only [List.length_singleton]
      omega
    · rw [if_neg hy, List.append_nil]
      rcases hlen y with h | ⟨q, hq, hqy, hqlen⟩
      · exact Or.inl h
      · exact Or.inr ⟨q, List.mem_append_left _ hq, hqy, hqlen⟩

theorem foldl_noMergeInv :
    ∀ (S P : List (Position × Tile)) (st : RState),
      (∀ q ∈ P, ∀ s ∈ S, ltKey q s) →
      List.Pairwise ltKey S →
      (∀ s ∈ S, 0 < s.2.n) →
      NoMergeInv P st →
      (S.foldl resolveStep st).merges = [] →
      NoMergeInv (P ++ S) (S.foldl resolveStep st) := by
  intro S
  induction S with
  | nil =>
    intro P st _ _ _ hinv _
    simpa using hinv
  | cons r S ih =>
    intro P st hps hsort hpos hinv hfin
    rw [List.foldl_cons] at hfin ⊢
    obtain ⟨ext, hext⟩ := foldl_merges_mono S (resolveStep st r)
    have hstepm : (resolveStep st r).merges = [] := by
      rw [hext] at hfin
      exact (List.append_eq_nil.mp hfin).1
    have hstep := resolveStep_noMerge P st r (hpos r (List.mem_cons_self _ _))
      (fun q hq => hps q hq r (List.mem_cons_self _ _)) hinv hstepm
    have hsort' := List.pairwise_cons.mp hsort
    have hres := ih (P ++ [r]) (resolveStep st r)
      (fun q hq s hsm => by
        rcases List.mem_append.mp hq with hq | hq
        · exact hps q hq s (List.mem_cons_of_mem _ hsm)
        · rw [List.mem_singleton.mp hq]
          exact hsort'.1 s hsm)
      hsort'.2
      (fun s hsm => hpos s (List.mem_cons_of_mem _ hsm))
      hstep hfin
    rw [List.append_assoc] at hres
    simpa using hres

theorem ltKey_key_ne (a b : Position × Tile) (h : ltKey a b) : a.1 ≠ b.1 := by
  unfold ltKey at h
  intro hc
  rw [hc] at h
  omega

theorem ltKey_asymm (a b : Position × Tile) (h1 : ltKey a b) (h2 : ltKey b a) :
    False := by
  unfold ltKey at h1 h2
  omega

theorem ltKey_irrefl (a : Position × Tile) : ¬ ltKey a a := by
  unfold ltKey
  omega

theorem resolveStep_ng_moving_eq (st : RState) (pt : Position × Tile)
    (h : pt.1 = (st.ng.get_desired_position pt.1 pt.2.n st.unavailable).1) :
    (resolveStep st pt).ng.moving_tiles = st.ng.moving_tiles := by
  simp only [resolveStep, Grid.insert_tile]
  rw [if_pos h]

/-- One step of resolving a grid whose rows are packed with no adjacent
equal values: the tile stays exactly where it is and no transition is
recorded. -/
theorem resolveStep_stays (ts : List (Position × Tile)) (V : Nat → List Nat)
    (hview : ∀ y, RowView ts y (V y))
    (hchain : ∀ y, List.Chain' (fun a b => a ≠ b) (V y))
    (hd : distinctKeys ts)
    (P2 : List (Position × Tile)) (st2 : RState) (r : Position × Tile)
    (hrts : r ∈ ts)
    (hP2r : ∀ b ∈ P2, ltKey b r)
    (hcov : ∀ b ∈ ts, ltKey b r → b ∈ P2)
    (hinv : StaysInv ts P2 st2) :
    StaysInv ts (P2 ++ [r]) (resolveStep st2 r) := by
  obtain ⟨hu0, hmov0, hlookP, hlookN⟩ := hinv
  have hlts : lookupTile ts r.1 = some r.2 := lookupTile_of_mem ts r.1 r.2 hd hrts
  have hVn : (V r.1.y).get? r.1.x = some r.2.n := by
    have h1 := hview r.1.y r.1.x
    have h2 : lookupN ts ⟨r.1.x, r.1.y⟩ = some r.2.n := by
      unfold lookupN
      have : (⟨r.1.x, r.1.y⟩ : Position) = r.1 := rfl
      rw [this, hlts]
      rfl
    rw [← h1]
    exact h2
  have hxlen : r.1.x < (V r.1.y).length := by
    by_contra hc
    rw [List.get?_len_le (by omega)] at hVn
    exact absurd hVn (by simp)
  -- the tile's destination is its own cell
  have hgdp : st2.ng.get_desired_position r.1 r.2.n st2.unavailable =
      (r.1, r.2.n) := by
    by_cases hx : r.1.x = 0
    · unfold Grid.get_desired_position
      rw [if_pos hx]
    · obtain ⟨x0, hx0⟩ : ∃ x0, r.1.x = x0 + 1 := ⟨r.1.x - 1, by omega⟩
      obtain ⟨v', hv'⟩ : ∃ v', (V r.1.y).get? x0 = some v' := by
        rcases hg : (V r.1.y).get? x0 with _ | v'
        · rw [List.get?_eq_none] at hg
          omega
        · exact ⟨v', rfl⟩
      obtain ⟨tl, htl, htln⟩ := (lookupN_eq_some_iff _ _ _).mp
        (by rw [hview r.1.y x0]; exact hv')
      have hb0 : (⟨x0, r.1.y⟩, tl) ∈ ts := lookupTile_some_mem _ _ _ htl
      have hb0lt : ltKey (⟨x0, r.1.y⟩, tl) r := Or.inl (by simp only []; omega)
      have hb0P2 := hcov _ hb0 hb0lt
      have hlook2 : lookupN st2.ng.tiles ⟨x0, r.1.y⟩ = some v' := by
        rw [hlookP _ hb0P2]
        simp only []
        rw [hview r.1.y x0]
        exact hv'
      obtain ⟨tl2, htl2, htl2n⟩ := (lookupN_eq_some_iff _ _ _).mp hlook2
      have hvne : v' ≠ r.2.n := by
        have hch := List.chain'_iff_get.mp (hchain r.1.y) x0 (by omega)
        have hg1 : (V r.1.y).get ⟨x0, by omega⟩ = v' := by
          have := List.get?_eq_get (l := V r.1.y) (n := x0) (by omega)
          rw [this] at hv'
          injection hv'
        have hg2 : (V r.1.y).get ⟨x0 + 1, by omega⟩ = r.2.n := by
          have hVn' : (V r.1.y).get? (x0 + 1) = some r.2.n := by
            rw [← hx0]
            exact hVn
          have hg := List.get?_eq_get (l := V r.1.y) (n := x0 + 1) (by omega)
          rw [hg] at hVn'
          exact Option.some_injective _ hVn'
        rw [hg1, hg2] at hch
        exact hch
      unfold Grid.get_desired_position
      rw [if_neg hx, hx0]
      simp only [Nat.add_sub_cancel]
      rw [gdpAux_stop_ne st2.ng.tiles r.1.y r.2.n st2.unavailable x0 (x0 + 1) tl2
        (by rw [hu0]; exact List.not_mem_nil _) htl2 (by omega)]
      have : (⟨x0 + 1, r.1.y⟩ : Position) = r.1 := by
        rw [← hx0]
      rw [this]
  have htiles := resolveStep_ng_tiles st2 r
  have hunav := resolveStep_unavailable st2 r
  rw [hgdp] at htiles hunav
  simp only [] at htiles hunav
  have hmov' := resolveStep_ng_moving_eq st2 r (by rw [hgdp])
  have hnotgt : ¬ r.2.n > r.2.n := by omega
  rw [if_neg hnotgt] at hunav
  refine ⟨by rw [hunav, hu0], by rw [hmov', hmov0], ?_, ?_⟩
  · intro b hbm
    rcases List.mem_append.mp hbm with hbm | hbm
    · have hbne : b.1 ≠ r.1 := ltKey_key_ne b r (hP2r b hbm)
      rw [htiles, lookupN_insertPT_ne _ _ _ _ (Ne.symm hbne)]
      exact hlookP b hbm
    · rw [List.mem_singleton.mp hbm, htiles, lookupN_insertPT_self]
      unfold lookupN
      rw [hlts]
      rfl
  · intro q hq
    have hqr : r.1 ≠ q :=
      hq r (List.mem_append_right _ (List.mem_singleton.mpr rfl))
    rw [htiles, lookupN_insertPT_ne _ _ _ _ hqr]
    exact hlookN q fun b hbm => hq b (List.mem_append_left _ hbm)

theorem foldl_stays (ts : List (Position × Tile)) (V : Nat → List Nat)
    (hview : ∀ y, RowView ts y (V y))
    (hchain : ∀ y, List.Chain' (fun a b => a ≠ b) (V y))
    (hd : distinctKeys ts) :
    ∀ (S P2 : List (Position × Tile)) (st2 : RState),
      (∀ b ∈ S, b ∈ ts) →
      (∀ b ∈ ts, b ∈ P2 ++ S) →
      List.Pairwise ltKey (P2 ++ S) →
      StaysInv ts P2 st2 →
      StaysInv ts (P2 ++ S) (S.foldl resolveStep st2) := by
  intro S
  induction S with
  | nil =>
    intro P2 st2 _ _ _ hinv
    simpa using hinv
  | cons r S ih =>
    intro P2 st2 hsub hcomp hsort hinv
    have hcross := (List.pairwise_append.mp hsort).2.2
    have hrS := List.pairwise_cons.mp (List.pairwise_append.mp hsort).2.1
    have hP2r : ∀ b ∈ P2, ltKey b r :=
      fun b hbm => hcross b hbm r (List.mem_cons_self _ _)
    have hcov : ∀ b ∈ ts, ltKey b r → b ∈ P2 := by
      intro b hbts hblt
      rcases List.mem_append.mp (hcomp b hbts) with hbm | hbm
      · exact hbm
      · rcases List.mem_cons.mp hbm with hbm | hbm
        · exact absurd (hbm ▸ hblt) (ltKey_irrefl r)
        · exact absurd hblt fun hblt => ltKey_asymm b r hblt (hrS.1 b hbm)
    have hstep := resolveStep_stays ts V hview hchain hd P2 st2 r
      (hsub r (List.mem_cons_self _ _)) hP2r hcov hinv
    have happ : (P2 ++ [r]) ++ S = P2 ++ (r :: S) := by simp
    have hres := ih (P2 ++ [r]) (resolveStep st2 r)
      (fun b hbm => hsub b (List.mem_cons_of_mem _ hbm))
      (fun b hbts => by rw [happ]; exact hcomp b hbts)
      (by rw [happ]; exact hsort)
      hstep
    rw [List.foldl_cons]
    rw [happ] at hres
    exact hres

theorem checkMerges_nil (g : Grid) (m : Move) (h : g.checkMerges m = []) :
    (g.resolveState m).merges = [] := by
  cases m <;> simp only [Grid.checkMerges] at h
  case Left => exact h
  all_goals exact List.map_eq_nil.mp h

theorem mapFlip_mapFlip (ts : List (Position × Tile)) (f1 f2 : Flip) (s : Nat)
    (h : ∀ pt ∈ ts, flipPos f2 s (flipPos f1 s pt.1) = pt.1) :
    ((ts.map fun pt => (flipPos f1 s pt.1, pt.2)).map
        fun pt => (flipPos f2 s pt.1, pt.2)) = ts := by
  rw [List.map_map]
  have hcongr : ∀ pt ∈ ts, ((fun pt : Position × Tile => (flipPos f2 s pt.1, pt.2)) ∘
      fun pt : Position × Tile => (flipPos f1 s pt.1, pt.2)) pt = pt := by
    intro pt hpt
    simp [Function.comp, h pt hpt]
  calc ts.map (((fun pt : Position × Tile => (flipPos f2 s pt.1, pt.2)) ∘
        fun pt : Position × Tile => (flipPos f1 s pt.1, pt.2)))
      = ts.map id := List.map_congr_left hcongr
    _ = ts := List.map_id ts

theorem resolveState_tiles_bounds (g : Grid) (m : Move)
    (hb : ∀ pt ∈ g.tiles, InBounds g.size pt.1)
    (hd : distinctKeys g.tiles) :
    ∀ pt ∈ (g.resolveState m).ng.tiles, InBounds g.size pt.1 := by
  have hinv := resolveState_inv g m hb hd
  obtain ⟨_, hfr, _⟩ := hinv
  intro pt hpt
  obtain ⟨q, hq, hqy, hqx⟩ := hfr pt hpt
  have hqb := preFlip_tiles_bounds g m hb q ((sortTiles_perm _).mem_iff.mp hq)
  unfold InBounds at *
  omega

theorem preFlip_tiles_pos (g : Grid) (m : Move)
    (hpos : ∀ pt ∈ g.tiles, 0 < pt.2.n) :
    ∀ pt ∈ (g.preFlip m).tiles, 0 < pt.2.n := by
  intro pt hpt
  cases m <;> simp only [Grid.preFlip] at hpt
  case Left => exact hpos pt hpt
  all_goals
  · simp only [Grid.flip, List.mem_map] at hpt
    obtain ⟨q, hq, hq2⟩ := hpt
    rw [← hq2]
    exact hpos q hq

theorem resolveStep_ng_size (st : RState) (pt : Position × Tile) :
    (resolveStep st pt).ng.size = st.ng.size := by
  simp only [resolveStep, Grid.insert_tile]
  split <;> rfl

theorem foldl_resolveStep_ng_size (S : List (Position × Tile)) :
    ∀ st : RState, (S.foldl resolveStep st).ng.size = st.ng.size := by
  induction S with
  | nil => intro st; rfl
  | cons r S ih =>
    intro st
    rw [List.foldl_cons, ih, resolveStep_ng_size]

theorem resolveState_ng_size (g : Grid) (m : Move) :
    (g.resolveState m).ng.size = g.size := by
  have h1 : (g.resolveState m).ng.size = (g.preFlip m).size := by
    simp only [Grid.resolveState]
    rw [foldl_resolveStep_ng_size]
  rw [h1]
  cases m <;> rfl

/-- The tiles the second resolution pass works on (after its own opening
rotation) are exactly the raw resolved tiles of the first pass: the closing
rotation of the first `check` and the opening rotation of the second cancel
on in-bounds keys. -/
theorem applyResolve_preFlip_tiles (g : Grid) (m : Move)
    (hb : ∀ pt ∈ g.tiles, InBounds g.size pt.1)
    (hd : distinctKeys g.tiles) :
    ((g.applyResolve m).preFlip m).tiles = (g.resolveState m).ng.tiles := by
  have hbt := resolveState_tiles_bounds g m hb hd
  have hsz := resolveState_ng_size g m
  cases m with
  | Left => rfl
  | Right =>
    show (((g.resolveState Move.Right).ng.tiles.map
        fun pt => (flipPos .Horizontal ((g.resolveState Move.Right).ng.size - 1) pt.1,
          pt.2)).map
        fun pt => (flipPos .Horizontal ((g.resolveState Move.Right).ng.size - 1) pt.1,
          pt.2)) =
      (g.resolveState Move.Right).ng.tiles
    refine mapFlip_mapFlip _ _ _ _ ?_
    intro pt hpt
    obtain ⟨hx, hy⟩ := hbt pt hpt
    rw [hsz]
    exact flipPos_hh _ _ (by omega)
  | Up =>
    show (((g.resolveState Move.Up).ng.tiles.map
        fun pt => (flipPos .CounterClock ((g.resolveState Move.Up).ng.size - 1) pt.1,
          pt.2)).map
        fun pt => (flipPos .Clock ((g.resolveState Move.Up).ng.size - 1) pt.1,
          pt.2)) =
      (g.resolveState Move.Up).ng.tiles
    refine mapFlip_mapFlip _ _ _ _ ?_
    intro pt hpt
    obtain ⟨hx, hy⟩ := hbt pt hpt
    rw [hsz]
    exact flipPos_c_cc _ _ (by omega)
  | Down =>
    show (((g.resolveState Move.Down).ng.tiles.map
        fun pt => (flipPos .Clock ((g.resolveState Move.Down).ng.size - 1) pt.1,
          pt.2)).map
        fun pt => (flipPos .CounterClock ((g.resolveState Move.Down).ng.size - 1) pt.1,
          pt.2)) =
      (g.resolveState Move.Down).ng.tiles
    refine mapFlip_mapFlip _ _ _ _ ?_
    intro pt hpt
    obtain ⟨hx, hy⟩ := hbt pt hpt
    rw [hsz]
    exact flipPos_cc_c _ _ (by omega)

/-- Claim C7 as amended: resolving a direction against the grid obtained by
applying that direction's resolution outcome yields an empty transition set,
provided the resolution that produced the outcome performed no merge (the
counterexample shows this proviso is necessary: a merge can leave a newly
adjacent equal pair that compacts further). -/
theorem c7_amended_mergefree_idempotent (g : Grid) (m : Move)
    (hb : ∀ pt ∈ g.tiles, InBounds g.size pt.1)
    (hd : distinctKeys g.tiles)
    (hpos : ∀ pt ∈ g.tiles, 0 < pt.2.n)
    (hnm : g.checkMerges m = []) :
    (g.applyResolve m).checkTransitions m = [] := by
  -- the first pass, known to be merge-free, leaves every row packed
  have hb1 := preFlip_tiles_bounds g m hb
  have hd1 := preFlip_tiles_distinct g m hb hd
  have hpos1 := preFlip_tiles_pos g m hpos
  have hperm := sortTiles_perm (g.preFlip m).tiles
  have hdsorted := distinctKeys_of_perm _ _ hperm.symm hd1
  have hstrict := sorted_distinct_strict _ (sortTiles_sorted _) hdsorted
  have hpossorted : ∀ r ∈ sortTiles (g.preFlip m).tiles, 0 < r.2.n :=
    fun r hr => hpos1 r (hperm.mem_iff.mp hr)
  have hrs : g.resolveState m =
      (sortTiles (g.preFlip m).tiles).foldl resolveStep
        ⟨{ tiles := [], moving_tiles := [], size := (g.preFlip m).size,
           tile_width := (g.preFlip m).tile_width,
           tile_height := (g.preFlip m).tile_height,
           coordinates := (g.preFlip m).coordinates }, [], []⟩ := rfl
  have hm1 : ((sortTiles (g.preFlip m).tiles).foldl resolveStep
      ⟨{ tiles := [], moving_tiles := [], size := (g.preFlip m).size,
         tile_width := (g.preFlip m).tile_width,
         tile_height := (g.preFlip m).tile_height,
         coordinates := (g.preFlip m).coordinates }, [], []⟩).merges = [] := by
    rw [← hrs]
    exact checkMerges_nil g m hnm
  have hbase : NoMergeInv []
      (⟨{ tiles := [], moving_tiles := [], size := (g.preFlip m).size,
          tile_width := (g.preFlip m).tile_width,
          tile_height := (g.preFlip m).tile_height,
          coordinates := (g.preFlip m).coordinates }, [], []⟩ : RState) := by
    refine ⟨rfl, rfl, ?_, ?_, ?_⟩
    · intro y x
      simp [rowValsOf, RowView, lookupN, lookupTile]
    · intro y
      simp [rowValsOf]
    · intro y
      exact Or.inl rfl
  have hNM := foldl_noMergeInv (sortTiles (g.preFlip m).tiles) [] _
    (by simp) hstrict hpossorted hbase hm1
  rw [← hrs] at hNM
  have hview : ∀ y, RowView (g.resolveState m).ng.tiles y
      (rowValsOf (sortTiles (g.preFlip m).tiles) y) := by
    have h := hNM.2.2.1
    simpa using h
  have hchain : ∀ y, List.Chain' (fun a b => a ≠ b)
      (rowValsOf (sortTiles (g.preFlip m).tiles) y) := by
    have h := hNM.2.2.2.1
    simpa using h
  -- the second pass resolves the packed board: every tile stays put
  have hd2 : distinctKeys (g.resolveState m).ng.tiles := (resolveState_inv g m hb hd).1
  have htiles2 := applyResolve_preFlip_tiles g m hb hd
  have hperm2 : (sortTiles ((g.applyResolve m).preFlip m).tiles).Perm
      (g.resolveState m).ng.tiles := by
    rw [htiles2]
    exact sortTiles_perm _
  have hd2sorted := distinctKeys_of_perm _ _ hperm2.symm hd2
  have hstrict2 := sorted_distinct_strict _ (sortTiles_sorted _) hd2sorted
  have hbase2 : StaysInv (g.resolveState m).ng.tiles []
      (⟨{ tiles := [], moving_tiles := [],
          size := ((g.applyResolve m).preFlip m).size,
          tile_width := ((g.applyResolve m).preFlip m).tile_width,
          tile_height := ((g.applyResolve m).preFlip m).tile_height,
          coordinates := ((g.applyResolve m).preFlip m).coordinates }, [], []⟩ :
        RState) := by
    refine ⟨rfl, rfl, ?_, ?_⟩
    · intro b hbm
      simp at hbm
    · intro q _
      rfl
  have hstays := foldl_stays (g.resolveState m).ng.tiles
    (fun y => rowValsOf (sortTiles (g.preFlip m).tiles) y) hview hchain hd2
    (sortTiles ((g.applyResolve m).preFlip m).tiles) [] _
    (fun b hbm => hperm2.mem_iff.mp hbm)
    (fun b hbts => hperm2.mem_iff.mpr hbts)
    hstrict2 hbase2
  have hmov : ((g.applyResolve m).resolveState m).ng.moving_tiles = [] := by
    have h := hstays.2.1
    exact h
  show (g.applyResolve m).checkTransitions m = []
  unfold Grid.checkTransitions
  cases m with
  | Left =>
    show ((g.applyResolve Move.Left).resolveState Move.Left).ng.moving_tiles = []
    exact hmov
  | Right =>
    show (((g.applyResolve Move.Right).resolveState Move.Right).ng.flip
        .Horizontal).moving_tiles = []
    unfold Grid.flip
    rw [hmov]
    rfl
  | Up =>
    show (((g.applyResolve Move.Up).resolveState Move.Up).ng.flip
        .CounterClock).moving_tiles = []
    unfold Grid.flip
    rw [hmov]
    rfl
  | Down =>
    show (((g.applyResolve Move.Down).resolveState Move.Down).ng.flip
        .Clock).moving_tiles = []
    unfold Grid.flip
    rw [hmov]
    rfl

/-- Witness for `c7_amended_mergefree_idempotent`: the board
`{(0,0):2, (2,0):4}` resolves Left without a merge, and recompacting the
outcome produces no transitions. -/
theorem c7_amended_mergefree_idempotent_witness :
    gridMergeFree.checkMerges Move.Left = [] ∧
    (gridMergeFree.applyResolve Move.Left).checkTransitions Move.Left = [] :=
  ⟨by decide,
    c7_amended_mergefree_idempotent gridMergeFree Move.Left (by decide) (by decide)
      (by decide) (by decide)⟩

end Rust2048
